import Mathlib

/-!
Shallow embedding of the Discord signal-relay bot (`main.py`, the
Discord→Altrady relay variant, and `discord_to_bybit.py`, the direct-execution
variant).  Text is modelled as `List Char`; Python `float` prices are modelled
exactly as rationals (every price in the program arises from a decimal numeral,
so ordering and comparisons with zero agree with the float semantics);
wall-clock instants are rationals.  The hand-compiled pattern matchers below
mirror the Python `re` patterns over their ASCII character classes
(`[A-Z0-9]` under `re.I`, `\w`, `\b`); `html.unescape` is modelled over the
core named entities (every theorem below only evaluates it on ampersand-free
text, where both the model and the library function are the identity).
-/

set_option maxRecDepth 20000

namespace Bot

/-- Characters stripped by Python `str.strip()` and matched by `\s`
(the Unicode whitespace set of CPython's `str.isspace`). -/
def isPySpace (c : Char) : Bool :=
  c == ' ' || c == '\t' || c == '\n' || c == '\r' || c == '\x0b' || c == '\x0c' ||
  c == '\x1c' || c == '\x1d' || c == '\x1e' || c == '\x1f' || c == '\x85' ||
  c == Char.ofNat 0xA0 || c == Char.ofNat 0x1680 ||
  (Char.ofNat 0x2000 ≤ c && c ≤ Char.ofNat 0x200A) ||
  c == Char.ofNat 0x2028 || c == Char.ofNat 0x2029 || c == Char.ofNat 0x202F ||
  c == Char.ofNat 0x205F || c == Char.ofNat 0x3000

/-- The character class of the `MULTI_WS` pattern (space, tab, U+00A0). -/
def isRunWS (c : Char) : Bool :=
  c == ' ' || c == '\t' || c == Char.ofNat 0xA0

/-- `[A-Z0-9]` under `re.I` (ASCII model). -/
def isAlnum (c : Char) : Bool := c.isAlphanum

/-- A regex word character (`\w`, ASCII model), used for `\b` boundaries. -/
def isWordC (c : Char) : Bool := c.isAlphanum || c == '_'

def headIsWord (s : List Char) : Bool :=
  match s with
  | c :: _ => isWordC c
  | [] => false

/-- `s.replace("\r", "")`. -/
def removeCR (s : List Char) : List Char := s.filter (fun c => c ≠ '\r')

/-- `str.strip()` from the left. -/
def stripL (s : List Char) : List Char := s.dropWhile isPySpace

/-- `str.strip()` from the right. -/
def dropTrail (s : List Char) : List Char := (s.reverse.dropWhile isPySpace).reverse

/-- Python `str.strip()`. -/
def strip (s : List Char) : List Char := dropTrail (stripL s)

/-- `s.split("\n")` (never returns the empty list, like Python's `str.split`). -/
def splitNL : List Char → List (List Char)
  | [] => [[]]
  | c :: rest =>
    if c = '\n' then [] :: splitNL rest
    else
      match splitNL rest with
      | [] => [[c]]
      | l :: ls => (c :: l) :: ls

/-- `"\n".join(ls)`. -/
def joinNL : List (List Char) → List Char
  | [] => []
  | [l] => l
  | l :: l' :: ls => l ++ '\n' :: joinNL (l' :: ls)

/-- Core of the `MULTI_WS.sub(" ", s)` rewrite: the flag records whether the
previous character belonged to a `[ \t ]+` run already replaced. -/
def collapseAux : Bool → List Char → List Char
  | _, [] => []
  | inRun, c :: rest =>
    if isRunWS c then
      if inRun then collapseAux true rest
      else ' ' :: collapseAux true rest
    else c :: collapseAux false rest

/-- `MULTI_WS.sub(" ", s)`: each maximal run of `[ \t ]` becomes one space. -/
def multiWsSub (s : List Char) : List Char := collapseAux false s

/-- Named-entity table of the `html.unescape` model (longest entries first, with
and without the closing semicolon, as in the `html5` dictionary). -/
def namedEnts : List (List Char × Char) :=
  [(("amp;").data, '&'), (("amp").data, '&'),
   (("lt;").data, '<'), (("lt").data, '<'),
   (("gt;").data, '>'), (("gt").data, '>'),
   (("quot;").data, '"'), (("quot").data, '"'),
   (("apos;").data, Char.ofNat 39),
   (("nbsp;").data, Char.ofNat 0xA0), (("nbsp").data, Char.ofNat 0xA0)]

/-- If `pat` starts `s`, return the rest of `s`. -/
def dropPat : List Char → List Char → Option (List Char)
  | [], s => some s
  | _ :: _, [] => none
  | p :: ps, c :: cs => if p = c then dropPat ps cs else none

/-- Try the entity table on the text following an ampersand. -/
def matchEntity (tbl : List (List Char × Char)) (s : List Char) : Option (Char × List Char) :=
  match tbl with
  | [] => none
  | (pat, ch) :: rest =>
    match dropPat pat s with
    | some r => some (ch, r)
    | none => matchEntity rest s

/-- Fuel-indexed scanner for `html.unescape` (each step consumes at least one
character, so fuel `s.length` suffices; with fuel `0` the rest is returned
unchanged). -/
def unescapeGo : Nat → List Char → List Char
  | 0, s => s
  | _ + 1, [] => []
  | n + 1, c :: rest =>
    if c = '&' then
      match matchEntity namedEnts rest with
      | some (ch, r) => ch :: unescapeGo n r
      | none => '&' :: unescapeGo n rest
    else c :: unescapeGo n rest

/-- Model of Python `html.unescape`, restricted to the core named entities.
Every theorem in this file evaluates it only on ampersand-free text, where it
is the identity exactly as the library function is. -/
def htmlUnescape (s : List Char) : List Char := unescapeGo s.length s

/-- Attempt the `MD_LINK` pattern `\[([^\]]+)\]\((?:[^)]+)\)` at an opening
bracket: `s` is the text after the `[`; on success return the label (group 1)
and the text after the closing parenthesis. -/
def tryLink (s : List Char) : Option (List Char × List Char) :=
  let lab := s.takeWhile (fun c => c ≠ ']')
  if lab = [] then none
  else
    match s.dropWhile (fun c => c ≠ ']') with
    | ']' :: '(' :: r2 =>
      let tgt := r2.takeWhile (fun c => c ≠ ')')
      if tgt = [] then none
      else
        match r2.dropWhile (fun c => c ≠ ')') with
        | ')' :: r3 => some (lab, r3)
        | _ => none
    | _ => none

/-- Fuel-indexed scanner for `MD_LINK.sub(r"\1", s)` (left-to-right,
non-overlapping, exactly Python `re.sub` for this pattern). -/
def mdLinkAux : Nat → List Char → List Char
  | 0, s => s
  | _ + 1, [] => []
  | n + 1, c :: rest =>
    if c = '[' then
      match tryLink rest with
      | some (lab, r3) => lab ++ mdLinkAux n r3
      | none => '[' :: mdLinkAux n rest
    else c :: mdLinkAux n rest

def mdLinkSub (s : List Char) : List Char := mdLinkAux s.length s

/-- The character class of `MD_MARK`: `[*_`~]`. -/
def isMark (c : Char) : Bool :=
  c == '*' || c == '_' || c == Char.ofNat 96 || c == '~'

/-- `MD_MARK.sub("", s)`. -/
def mdMarkSub (s : List Char) : List Char := s.filter (fun c => !(isMark c))

/-- `clean_markdown` from both source variants: strip carriage returns, resolve
HTML entities, rewrite `[label](target)` to `label`, delete emphasis markers,
collapse horizontal-whitespace runs, trim every line, trim the result. -/
def clean_markdown (s : List Char) : List Char :=
  if s = [] then []
  else
    strip (joinNL (((splitNL (multiWsSub (mdMarkSub (mdLinkSub (htmlUnescape (removeCR s)))))).map strip)))

/-! ### Signal parsing (`find_base_side`, `find_entry`, `find_tp_dca`) -/

/-- `long` / `short` as returned by `find_base_side`. -/
inductive Side where
  | long
  | short
deriving DecidableEq

/-- Case-insensitive ASCII character comparison (for `re.I`). -/
def lowerEq (a b : Char) : Bool := a.toLower == b.toLower

/-- Case-insensitive literal: if `pat` starts `s` (up to ASCII case), return
the rest of `s`. -/
def litCI : List Char → List Char → Option (List Char)
  | [], s => some s
  | _ :: _, [] => none
  | p :: ps, c :: cs => if lowerEq p c then litCI ps cs else none

/-- Greedy `\s*` (deterministic in every context where the next pattern
element cannot match a whitespace character). -/
def ws0 (s : List Char) : List Char := s.dropWhile isPySpace

/-- Greedy `\s+`. -/
def ws1 (s : List Char) : Option (List Char) :=
  match s with
  | c :: _ => if isPySpace c then some (ws0 s) else none
  | [] => none

/-- `\$?` followed by `\s*`. -/
def dollarWs (s : List Char) : List Char :=
  match s with
  | c :: cs => if c = '$' then ws0 cs else s
  | [] => s

/-- Group 1 of `NUM = ([0-9][0-9,]*\.?[0-9]*)` at the current position. -/
def numGroup (s : List Char) : Option (List Char) :=
  match s with
  | c :: cs =>
    if c.isDigit then
      let p1 := cs.takeWhile (fun x => x.isDigit || x == ',')
      let r1 := cs.dropWhile (fun x => x.isDigit || x == ',')
      match r1 with
      | '.' :: r2 => some (c :: p1 ++ '.' :: r2.takeWhile Char.isDigit)
      | _ => some (c :: p1)
    else none
  | [] => none

def digitsToNat (l : List Char) : Nat :=
  l.foldl (fun a c => a * 10 + (c.toNat - 48)) 0

/-- `to_price` from both source variants: strip thousands separators and read
the decimal numeral (modelled exactly as a rational). -/
def to_price (g : List Char) : ℚ :=
  let noC := g.filter (fun c => c ≠ ',')
  let ip := noC.takeWhile (fun c => c ≠ '.')
  let fp := (noC.dropWhile (fun c => c ≠ '.')).drop 1
  mkRat (digitsToNat (ip ++ fp)) (10 ^ fp.length)

/-- Generic `re.search`: try the position matcher at every position from the
left (tracking the previous character for `\b`); the first success wins. -/
def searchA {α : Type} (m : Option Char → List Char → Option α) :
    Option Char → List Char → Option α
  | prev, s =>
    match m prev s with
    | some r => some r
    | none =>
      match s with
      | [] => none
      | c :: cs => searchA m (some c) cs

/-- `\b` before a word character: the previous character must not be a word
character (or the position is the start of the string). -/
def wbOK (prev : Option Char) : Bool :=
  match prev with
  | none => true
  | some c => !(isWordC c)

/-- `(LONG|SHORT)\b` at the current position, with the preceding `\b` checked
against `prev` (used inside `HDR_SLASH_PAIR`). -/
def dirAt (prev : Char) (s : List Char) : Option Side :=
  if isWordC prev then none
  else
    match litCI (("long").data) s with
    | some r => if headIsWord r then none else some Side.long
    | none =>
      match litCI (("short").data) s with
      | some r => if headIsWord r then none else some Side.short
      | none => none

/-- Rightmost `\b(LONG|SHORT)\b` in the segment (the greedy `.*` of
`HDR_SLASH_PAIR` backtracks from the right, so the last occurrence on the
line wins). -/
def findLastDir (prev : Char) (s : List Char) (acc : Option Side) : Option Side :=
  match s with
  | [] => acc
  | c :: cs =>
    findLastDir c cs
      (match dirAt prev (c :: cs) with
       | some d => some d
       | none => acc)

/-- `HDR_SLASH_PAIR = ([A-Z0-9]+)\s*/\s*[A-Z0-9]+\b.*\b(LONG|SHORT)\b` (re.I,
`.` does not cross a newline) attempted at the current position. -/
def slashPairAt (s : List Char) : Option (List Char × Side) :=
  let g1 := s.takeWhile isAlnum
  let r1 := s.dropWhile isAlnum
  if g1 = [] then none
  else
    match ws0 r1 with
    | '/' :: r3 =>
      let r4 := ws0 r3
      let g2 := r4.takeWhile isAlnum
      let r5 := r4.dropWhile isAlnum
      if g2 = [] then none
      else if headIsWord r5 then none
      else
        let seg := r5.takeWhile (fun c => c ≠ '\n')
        match findLastDir (g2.getLastD 'x') seg none with
        | some sd => some (g1, sd)
        | none => none
    | _ => none

/-- After `Signal` in `PAIR_LINE_OLD`: the closing `\s*(\n|$)` succeeds iff the
whitespace run contains a newline or extends to the end of the string. -/
def lineEndOK (s : List Char) : Bool :=
  (s.takeWhile isPySpace).any (fun c => c == '\n') || s.dropWhile isPySpace = []

/-- `PAIR_LINE_OLD = (^|\n)\s*([A-Z0-9]+)\s+(LONG|SHORT)\s+Signal\s*(\n|$)`
attempted at a line anchor (the text after the `^` or after the anchoring
newline). -/
def pairOldFrom (s : List Char) : Option (List Char × Side) :=
  let r1 := ws0 s
  let g := r1.takeWhile isAlnum
  let r2 := r1.dropWhile isAlnum
  if g = [] then none
  else
    match ws1 r2 with
    | none => none
    | some r3 =>
      let tryWord := fun (w : List Char) (sd : Side) =>
        match litCI w r3 with
        | some r4 =>
          match ws1 r4 with
          | none => none
          | some r5 =>
            match litCI (("signal").data) r5 with
            | some r6 => if lineEndOK r6 then some (g, sd) else none
            | none => none
        | none => none
      match tryWord (("long").data) Side.long with
      | some res => some res
      | none => tryWord (("short").data) Side.short

/-- Scan the anchors of `PAIR_LINE_OLD`: the start of the string, then the
position after every newline, in order (leftmost match wins). -/
def pairOldScan : List Char → Option (List Char × Side)
  | [] => none
  | c :: cs =>
    if c = '\n' then
      match pairOldFrom cs with
      | some r => some r
      | none => pairOldScan cs
    else pairOldScan cs

def searchPairOld (s : List Char) : Option (List Char × Side) :=
  match pairOldFrom s with
  | some r => some r
  | none => pairOldScan s

/-- The `Direction\s*:\s*(LONG|SHORT)` fragment of `HDR_COIN_DIR` at the
current position (no word boundaries in the source pattern). -/
def dirFrag (s : List Char) : Option Side :=
  match litCI (("direction").data) s with
  | some r =>
    (match ws0 r with
     | ':' :: r2 =>
       (match litCI (("long").data) (ws0 r2) with
        | some _ => some Side.long
        | none =>
          match litCI (("short").data) (ws0 r2) with
          | some _ => some Side.short
          | none => none)
     | _ => none)
  | none => none

/-- First `dirFrag` occurrence scanning left to right (the lazy `.*?`). -/
def scanFirstFrag : List Char → Option Side
  | [] => none
  | c :: cs =>
    match dirFrag (c :: cs) with
    | some d => some d
    | none => scanFirstFrag cs

/-- Backtracking of the greedy `([A-Z0-9]+)` of `HDR_COIN_DIR` into its own
run: try group-1 lengths `k, k-1, …, 1`; at length `l` the lazy `.*?` must
find `Direction …` exactly at the split point (larger splits already failed). -/
def coinBack (run rest : List Char) : Nat → Option (List Char × Side)
  | 0 => none
  | k + 1 =>
    match dirFrag (run.drop (k + 1) ++ rest) with
    | some sd => some (run.take (k + 1), sd)
    | none => coinBack run rest k

/-- `HDR_COIN_DIR = Coin\s*:\s*([A-Z0-9]+).*?Direction\s*:\s*(LONG|SHORT)`
(re.I | re.S) attempted at the current position. -/
def coinDirAt (s : List Char) : Option (List Char × Side) :=
  match litCI (("coin").data) s with
  | some r1 =>
    (match ws0 r1 with
     | ':' :: r2 =>
       let r3 := ws0 r2
       let run := r3.takeWhile isAlnum
       let r4 := r3.dropWhile isAlnum
       if run = [] then none
       else
         match scanFirstFrag r4 with
         | some sd => some (run, sd)
         | none => coinBack run r4 (run.length - 1)
     | _ => none)
  | none => none

/-- `find_base_side` from both source variants: the header cascade, first
matching rule wins, extracted symbol upper-cased. -/
def find_base_side (txt : List Char) : Option (List Char × Side) :=
  match searchA (fun _ s => slashPairAt s) none txt with
  | some (b, sd) => some (b.map Char.toUpper, sd)
  | none =>
    match searchPairOld txt with
    | some (b, sd) => some (b.map Char.toUpper, sd)
    | none =>
      match searchA (fun _ s => coinDirAt s) none txt with
      | some (b, sd) => some (b.map Char.toUpper, sd)
      | none => none

/-- The shared `\s*:\s*\$?\s*NUM` tail of the labelled-number patterns:
returns group 1 of `NUM`. -/
def colonNumTail (s : List Char) : Option (List Char) :=
  match ws0 s with
  | ':' :: r2 => numGroup (dollarWs (ws0 r2))
  | _ => none

/-- `ENTER_ON_TRIGGER = Enter\s+on\s+Trigger\s*:\s*\$?\s*NUM` (re.I, no word
boundary) at the current position; returns the `NUM` group. -/
def trigGroup (s : List Char) : Option (List Char) :=
  match litCI (("enter").data) s with
  | some r1 =>
    (match ws1 r1 with
     | some r2 =>
       (match litCI (("on").data) r2 with
        | some r3 =>
          (match ws1 r3 with
           | some r4 =>
             (match litCI (("trigger").data) r4 with
              | some r5 => colonNumTail r5
              | none => none)
           | none => none)
        | none => none)
     | none => none)
  | none => none

/-- `ENTRY_COLON = \bEntry\s*:\s*\$?\s*NUM` at the current position. -/
def entryColonGroup (prev : Option Char) (s : List Char) : Option (List Char) :=
  if wbOK prev then
    match litCI (("entry").data) s with
    | some r => colonNumTail r
    | none => none
  else none

/-- `ENTRY_SECTION = \bENTRY\b\s*\n\s*\$?\s*NUM` at the current position: after
`ENTRY` the whitespace run must contain a newline, then an optional dollar
marker and the numeral. -/
def entrySectionGroup (prev : Option Char) (s : List Char) : Option (List Char) :=
  if wbOK prev then
    match litCI (("entry").data) s with
    | some r =>
      if headIsWord r then none
      else if (r.takeWhile isPySpace).any (fun c => c == '\n') then
        numGroup (dollarWs (r.dropWhile isPySpace))
      else none
    | none => none
  else none

/-- `find_entry` from both source variants: the entry cascade in priority
order, first pattern with a match anywhere in the text wins. -/
def find_entry (txt : List Char) : Option ℚ :=
  match searchA (fun _ s => trigGroup s) none txt with
  | some g => some (to_price g)
  | none =>
    match searchA entryColonGroup none txt with
    | some g => some (to_price g)
    | none =>
      match searchA entrySectionGroup none txt with
      | some g => some (to_price g)
      | none => none

/-- `\bTP\s*n\s*:\s*\$?\s*NUM` at the current position (`n` is the digit). -/
def tpGroup (n : Char) (prev : Option Char) (s : List Char) : Option (List Char) :=
  if wbOK prev then
    match litCI (("tp").data) s with
    | some r1 =>
      (match ws0 r1 with
       | c :: r2 => if c = n then colonNumTail r2 else none
       | [] => none)
    | none => none
  else none

/-- `#?` followed by `\s*`. -/
def hashWs (s : List Char) : List Char :=
  match s with
  | c :: cs => if c = '#' then ws0 cs else s
  | [] => s

/-- `\bDCA\s*#?\s*n\s*:\s*\$?\s*NUM` at the current position. -/
def dcaGroup (n : Char) (prev : Option Char) (s : List Char) : Option (List Char) :=
  if wbOK prev then
    match litCI (("dca").data) s with
    | some r1 =>
      (match hashWs (ws0 r1) with
       | c :: r2 => if c = n then colonNumTail r2 else none
       | [] => none)
    | none => none
  else none

/-- `find_tp_dca` from `discord_to_bybit.py`: three independent target rules
and three independent scale-in rules. -/
def find_tp_dca (txt : List Char) : (Option ℚ × Option ℚ × Option ℚ) × (Option ℚ × Option ℚ × Option ℚ) :=
  let tp := fun n => (searchA (tpGroup n) none txt).map to_price
  let dca := fun n => (searchA (dcaGroup n) none txt).map to_price
  ((tp '1', tp '2', tp '3'), (dca '1', dca '2', dca '3'))

/-- The Signal of `main.py` (`parse_signal_from_text`, entry-only variant). -/
structure Signal where
  base : List Char
  side : Side
  entry : ℚ
deriving DecidableEq

/-- `parse_signal_from_text` from `main.py`: `find_base_side` returns a pair of
non-empty results or none (the extracted symbol is a non-empty `[A-Z0-9]+`
group, so Python's `not base or not side` test is exactly the none test). -/
def parse_signal_from_text (txt : List Char) : Option Signal :=
  match find_base_side txt with
  | none => none
  | some (base, side) =>
    match find_entry txt with
    | none => none
    | some entry => some { base := base, side := side, entry := entry }

/-- The Signal of `discord_to_bybit.py` (with targets, scale-ins, raw text). -/
structure SignalB where
  base : List Char
  side : Side
  entry : ℚ
  tp1 : Option ℚ
  tp2 : Option ℚ
  tp3 : Option ℚ
  dca1 : Option ℚ
  dca2 : Option ℚ
  dca3 : Option ℚ
  raw : List Char
deriving DecidableEq

/-- `parse_signal_from_text` from `discord_to_bybit.py`. -/
def parse_signal_from_text_bybit (txt : List Char) : Option SignalB :=
  match find_base_side txt with
  | none => none
  | some (base, side) =>
    match find_entry txt with
    | none => none
    | some entry =>
      match find_tp_dca txt with
      | ((tp1, tp2, tp3), (d1, d2, d3)) =>
        some { base := base, side := side, entry := entry,
               tp1 := tp1, tp2 := tp2, tp3 := tp3,
               dca1 := d1, dca2 := d2, dca3 := d3, raw := txt }

/-! ### Messages and `message_text` -/

/-- A structured sub-block of a message (`embeds` entry); empty strings model
absent keys, exactly the truthiness tests of the source. -/
structure EmbedB where
  title : List Char
  desc : List Char
  fields : List (List Char × List Char)
  footer : List Char
deriving DecidableEq

/-- A fetched message record; `id = none` models a record without an `"id"`
key (the loop then reads `int(m.get("id","0")) = 0`). -/
structure Msg where
  id : Option Nat
  content : List Char
  embeds : List EmbedB
deriving DecidableEq

/-- `int(m.get("id","0"))`. -/
def midVal (m : Msg) : Nat := m.id.getD 0

/-- The parts an embed contributes to `message_text` (title, description, each
field's name then value, footer); empty parts are filtered out afterwards. -/
def embedParts (e : EmbedB) : List (List Char) :=
  [e.title, e.desc] ++ (e.fields.flatMap (fun p => [p.1, p.2])) ++ [e.footer]

/-- `message_text` from both source variants: concatenate the body and every
embed part, drop empties, join with newlines, normalize. -/
def message_text (m : Msg) : List Char :=
  clean_markdown (joinNL ((m.content :: m.embeds.flatMap embedParts).filter (fun p => p ≠ [])))

/-! ### Dispatcher (`_post_one`, `post_to_all_webhooks`) and the fetch loop -/

/-- The environment's answer to one HTTP request. -/
inductive HResp where
  /-- Status 429 with the parsed `retry_after` value (`none` models a missing
  or unparsable value, which falls back to the source's default). -/
  | rl : Option ℚ → HResp
  /-- Any other HTTP status code. -/
  | code : Nat → HResp
  /-- The request itself raised (network error / timeout). -/
  | netfail
deriving DecidableEq

/-- Trace events of the dispatcher and fetcher: a request sent, or a sleep of
the given number of seconds. -/
inductive TEv where
  | req
  | slp : ℚ → TEv
deriving DecidableEq

/-- Outcome of `_post_one`: a response returned, the final exception re-raised,
or the `for attempt in range(3)` loop falling through after a rate limit on the
last attempt (the function then returns `None` without raising). -/
inductive PostRes where
  | delivered : Nat → PostRes
  | raised
  | silent
deriving DecidableEq

/-- `_post_one` from `main.py`, one iteration per remaining attempt; `a` is the
current value of `attempt`, `f` maps the attempt index to the environment's
response.  A 429 sleeps `retry_after + 0.25` (default `2.0`) and `continue`s —
which moves to the next `attempt` of the bounded loop; a 204 or any `r.ok`
status (`< 400`) returns; otherwise the raised error is retried after
`1.5 * (attempt + 1)` seconds, and re-raised on the last attempt. -/
def post_one_aux (f : Nat → HResp) : Nat → Nat → List TEv × PostRes
  | _, 0 => ([], .silent)
  | a, rem + 1 =>
    match f a with
    | .rl ra =>
      let next := post_one_aux f (a + 1) rem
      (.req :: .slp (ra.getD 2 + (1 : ℚ)/4) :: next.1, next.2)
    | .code c =>
      if c = 204 then ([.req], .delivered 204)
      else if c < 400 then ([.req], .delivered c)
      else if rem = 0 then ([.req], .raised)
      else
        let next := post_one_aux f (a + 1) rem
        (.req :: .slp ((3 : ℚ)/2 * (a + 1)) :: next.1, next.2)
    | .netfail =>
      if rem = 0 then ([.req], .raised)
      else
        let next := post_one_aux f (a + 1) rem
        (.req :: .slp ((3 : ℚ)/2 * (a + 1)) :: next.1, next.2)

/-- `_post_one` (`for attempt in range(3)`). -/
def post_one (f : Nat → HResp) : List TEv × PostRes := post_one_aux f 0 3

/-- `post_to_all_webhooks` from `main.py`: jobs are modelled by their
destination URL (the payload is built side-effect-free and never inspected by
a claim); each job's `_post_one` outcome is recorded, and an exception is
caught and the loop continues with the next webhook. -/
def postAllAux (f : Nat → Nat → HResp) : Nat → List (List Char) → List (List Char × PostRes)
  | _, [] => []
  | i, u :: us => (u, (post_one (f i)).2) :: postAllAux f (i + 1) us

def post_to_all_webhooks (urls : List (List Char)) (f : Nat → Nat → HResp) :
    List (List Char × PostRes) :=
  postAllAux f 0 urls

/-- The environment's answer to one request of the fetch loop. -/
inductive FResp where
  | rl : Option ℚ → FResp
  /-- A JSON page of messages. -/
  | page : List Msg → FResp
  /-- A non-429 error status (`raise_for_status` propagates). -/
  | httpErr
deriving DecidableEq

/-- `max(int(m.get("id","0")) for m in page if "id" in m)`: `none` when no
record carries an `"id"` (Python's `max` on an empty generator raises). -/
def pageMaxId (ms : List Msg) : Option Nat :=
  match ms.filterMap Msg.id with
  | [] => none
  | x :: xs => some (xs.foldl max x)

/-- `fetch_messages_after` from both variants, driven by the script of
responses the transport returns to successive requests: a 429 sleeps
`retry_after + 0.5` (default `5`) and retries the very same request (same
`after`, unbounded); a full page advances `after` to the page's maximum
identifier and continues; a short page ends the loop.  `none` as the overall
result models a script that ran out (the real loop would still be running);
`Except.error` models a propagated exception. -/
def fetchAux : List FResp → Option Nat → Nat → List Msg →
    List TEv × Option (Except Unit (List Msg))
  | [], _, _, _ => ([], none)
  | .rl ra :: rest, after, lim, col =>
    let next := fetchAux rest after lim col
    (.req :: .slp (ra.getD 5 + (1 : ℚ)/2) :: next.1, next.2)
  | .httpErr :: _, _, _, _ => ([.req], some (.error ()))
  | .page ms :: rest, after, lim, col =>
    let col2 := col ++ ms
    if ms.length < lim then ([.req], some (.ok col2))
    else
      match pageMaxId ms with
      | none => ([.req], some (.error ()))
      | some mx =>
        let next := fetchAux rest (some mx) lim col2
        (.req :: next.1, next.2)

def fetch_messages_after (script : List FResp) (after : Option Nat) (limit : Nat) :
    List TEv × Option (Except Unit (List Msg)) :=
  fetchAux script after (max 1 (min limit 100)) []

/-! ### The poll loop (`main`) -/

/-- The persisted state: `last_id` (`none` on a fresh start) and
`last_trade_ts`. -/
structure BotState where
  lastId : Option Nat
  lastTradeTs : ℚ
deriving DecidableEq

def lastIdVal (st : BotState) : Nat := st.lastId.getD 0

/-- Configuration of the relay variant (`main.py`): the cooldown interval,
webhook #1's URL, and — when `ALTRADY_WEBHOOK_URL_2`, `ALTRADY_API_KEY_2`,
`ALTRADY_API_SECRET_2` and `ALTRADY_EXCHANGE_2` are all set — webhook #2. -/
structure CfgM where
  cooldown : ℚ
  url1 : List Char
  dest2 : Bool
  url2 : List Char
deriving DecidableEq

/-- A message paired with the wall-clock instants the loop observes while
handling it: `t1` at the cooldown test, `t2` at the `last_trade_ts` update. -/
structure MsgT where
  msg : Msg
  t1 : ℚ
  t2 : ℚ
deriving DecidableEq

/-- Stable insertion into a list sorted ascending by message identifier. -/
def insByMid (x : MsgT) : List MsgT → List MsgT
  | [] => [x]
  | y :: ys => if midVal y.msg < midVal x.msg then y :: insByMid x ys else x :: y :: ys

/-- `sorted(msgs, key=lambda m: int(m.get("id","0")))` (stable, ascending). -/
def sortByMid (l : List MsgT) : List MsgT := l.foldr insByMid []

/-- The body of `for m in msgs_sorted` in `main.py`: cooldown gate, then parse,
then dispatch to every configured webhook; returns the updated `max_seen` and
`last_trade_ts` plus the dispatch attempts (`none` when no dispatch happened
for this message). -/
def stepMain (cfg : CfgM) (f : Nat → Nat → HResp) (mt : MsgT) (mx : Nat) (ts : ℚ) :
    Nat × ℚ × Option (List (List Char × PostRes)) :=
  if 0 < cfg.cooldown ∧ mt.t1 - ts < cfg.cooldown then
    (max mx (midVal mt.msg), ts, none)
  else if message_text mt.msg = [] then
    (max mx (midVal mt.msg), ts, none)
  else
    match parse_signal_from_text (message_text mt.msg) with
    | none => (max mx (midVal mt.msg), ts, none)
    | some _ =>
      (max mx (midVal mt.msg), mt.t2,
        some (post_to_all_webhooks (if cfg.dest2 then [cfg.url1, cfg.url2] else [cfg.url1]) f))

/-- Process the sorted batch in order, numbering messages from `i` and
collecting the dispatch events. -/
def procMain (cfg : CfgM) (F : Nat → Nat → Nat → HResp) :
    Nat → List MsgT → Nat → ℚ → Nat × ℚ × List (Nat × List (List Char × PostRes))
  | _, [], mx, ts => (mx, ts, [])
  | i, mt :: rest, mx, ts =>
    let r := stepMain cfg (F i) mt mx ts
    let tail := procMain cfg F (i + 1) rest r.1 r.2.1
    (tail.1, tail.2.1,
      (match r.2.2 with
       | some evs => [(i, evs)]
       | none => []) ++ tail.2.2)

/-- One tick of `main.py`'s poll loop, given an already fetched batch: sort by
identifier, fold `max_seen` from `int(last_id or 0)`, and — only when the batch
is non-empty — persist `last_id := str(max_seen)`. -/
def tickMain (cfg : CfgM) (F : Nat → Nat → Nat → HResp) (batch : List MsgT) (st : BotState) :
    BotState × List (Nat × List (List Char × PostRes)) :=
  match sortByMid batch with
  | [] => (st, [])
  | m :: ms =>
    let r := procMain cfg F 0 (m :: ms) (lastIdVal st) st.lastTradeTs
    ({ lastId := some r.1, lastTradeTs := r.2.1 }, r.2.2)

/-- Run a sequence of ticks (the oracle `F` additionally takes the tick
index). -/
def runTicks (cfg : CfgM) (F : Nat → Nat → Nat → Nat → HResp) :
    Nat → List (List MsgT) → BotState → BotState
  | _, [], st => st
  | k, b :: bs, st => runTicks cfg F (k + 1) bs (tickMain cfg (F k) b st).1

/-- The `last_id` values persisted by a run, one per tick. -/
def runTrace (cfg : CfgM) (F : Nat → Nat → Nat → Nat → HResp) :
    Nat → List (List MsgT) → BotState → List BotState
  | _, [], _ => []
  | k, b :: bs, st =>
    let st' := (tickMain cfg (F k) b st).1
    st' :: runTrace cfg F (k + 1) bs st'

/-- The identifier of the most recent message of a channel snapshot (Discord
identifiers increase with recency). -/
def chanMaxId (channel : List Msg) : Nat :=
  channel.foldl (fun a m => max a (midVal m)) 0

/-- The first-run seeding of `main` (both variants): with `last_id` null, try
to fetch the single most recent message and persist its identifier as the
baseline.  The whole attempt sits in a bare `try/except: pass`, so `fetchOk`
is the environment's verdict on the baseline fetch: when it raises — or when
the channel has no messages — `last_id` simply stays null and the loop starts
anyway.  On success the transport is modelled by the channel snapshot (the
newest message is the one with the largest identifier, and carries an
identifier). -/
def seedState (fetchOk : Bool) (channel : List Msg) : BotState :=
  if fetchOk = true ∧ channel ≠ [] then { lastId := some (chanMaxId channel), lastTradeTs := 0 }
  else { lastId := none, lastTradeTs := 0 }

/-- The transport contract of `fetch_messages_after(CHANNEL_ID, last_id, …)`
along a run: every message of every batch has an identifier strictly greater
than the `last_id` passed as `after` (Discord's `after` semantics).  Stated as
a boolean so concrete runs can be checked by evaluation. -/
def fetchOkB (cfg : CfgM) (F : Nat → Nat → Nat → Nat → HResp) :
    Nat → List (List MsgT) → BotState → Bool
  | _, [], _ => true
  | k, b :: bs, st =>
    b.all (fun mt => lastIdVal st < midVal mt.msg) &&
      fetchOkB cfg F (k + 1) bs (tickMain cfg (F k) b st).1

/-! ### The direct-execution variant (`discord_to_bybit.py`) -/

/-- Configuration of the bybit variant. -/
structure CfgB where
  cooldown : ℚ
  risk : ℚ
  lev : ℚ
  testMode : Bool
deriving DecidableEq

/-- `calc_qty_from_risk`. -/
def calc_qty_from_risk (cfg : CfgB) (entry : ℚ) : ℚ :=
  if entry ≤ 0 then 0 else max (cfg.risk * cfg.lev / entry) 0

/-- What `build_and_place_bybit_order` did. -/
inductive BOrd where
  /-- Returned early: no TP1 in the signal. -/
  | skipTp1
  /-- Returned early: computed quantity not positive. -/
  | skipQty
  /-- Returned early: TEST_MODE. -/
  | skipTest
  /-- `bybit.place_order` was called and returned. -/
  | placed
  /-- `bybit.place_order` raised; the exception is caught and logged. -/
  | orderErr
deriving DecidableEq

/-- `build_and_place_bybit_order` (`ok` is the environment's answer to the
order call). -/
def build_and_place_bybit_order (cfg : CfgB) (ok : Bool) (sig : SignalB) : BOrd :=
  if sig.tp1 = none then .skipTp1
  else if calc_qty_from_risk cfg sig.entry ≤ 0 then .skipQty
  else if cfg.testMode then .skipTest
  else if ok then .placed else .orderErr

/-- The body of `for m in msgs_sorted` in `discord_to_bybit.py`; the dispatch
gate is `if sig and sig.get("entry")`, so a parsed signal whose entry price is
the (falsy) value `0.0` is skipped without updating `last_trade_ts`. -/
def stepBybit (cfg : CfgB) (ok : Bool) (mt : MsgT) (mx : Nat) (ts : ℚ) :
    Nat × ℚ × Option BOrd :=
  if 0 < cfg.cooldown ∧ mt.t1 - ts < cfg.cooldown then
    (max mx (midVal mt.msg), ts, none)
  else if message_text mt.msg = [] then
    (max mx (midVal mt.msg), ts, none)
  else
    match parse_signal_from_text_bybit (message_text mt.msg) with
    | none => (max mx (midVal mt.msg), ts, none)
    | some sig =>
      if sig.entry ≠ 0 then
        (max mx (midVal mt.msg), mt.t2, some (build_and_place_bybit_order cfg ok sig))
      else (max mx (midVal mt.msg), ts, none)

/-! ### Helper lemmas -/

theorem to_price_nonneg (g : List Char) : 0 ≤ to_price g := by
  unfold to_price
  rw [Rat.mkRat_eq_div]
  positivity

theorem searchA_some {α : Type} {m : Option Char → List Char → Option α} :
    ∀ {prev : Option Char} {s : List Char} {v : α}, searchA m prev s = some v →
      ∃ p t, m p t = some v := by
  intro prev s
  induction s generalizing prev with
  | nil =>
    intro v h
    rw [searchA] at h
    rcases hm : m prev [] with _ | r
    · rw [hm] at h; simp at h
    · rw [hm] at h; simp at h; exact ⟨prev, [], by rw [hm, h]⟩
  | cons c cs ih =>
    intro v h
    rw [searchA] at h
    rcases hm : m prev (c :: cs) with _ | r
    · rw [hm] at h
      simp only [] at h
      exact ih h
    · rw [hm] at h; simp at h; exact ⟨prev, c :: cs, by rw [hm, h]⟩

theorem find_entry_nonneg {txt : List Char} {q : ℚ} (h : find_entry txt = some q) :
    0 ≤ q := by
  unfold find_entry at h
  rcases h1 : searchA (fun _ s => trigGroup s) none txt with _ | g <;> rw [h1] at h
  · rcases h2 : searchA entryColonGroup none txt with _ | g <;> rw [h2] at h
    · rcases h3 : searchA entrySectionGroup none txt with _ | g <;> rw [h3] at h
      · simp at h
      · simp at h; rw [← h]; exact to_price_nonneg _
    · simp at h; rw [← h]; exact to_price_nonneg _
  · simp at h; rw [← h]; exact to_price_nonneg _

theorem parse_entry_eq {txt : List Char} {sig : Signal}
    (h : parse_signal_from_text txt = some sig) : find_entry txt = some sig.entry := by
  unfold parse_signal_from_text at h
  rcases hb : find_base_side txt with _ | ⟨b, sd⟩ <;> rw [hb] at h
  · simp at h
  · rcases he : find_entry txt with _ | e <;> rw [he] at h
    · simp at h
    · simp at h
      rw [← h]

theorem postAllAux_map_fst (f : Nat → Nat → HResp) :
    ∀ (i : Nat) (urls : List (List Char)), (postAllAux f i urls).map Prod.fst = urls := by
  intro i urls
  induction urls generalizing i with
  | nil => rfl
  | cons u us ih => simp [postAllAux, ih]

theorem foldl_max_key_shift {α : Type} (key : α → Nat) :
    ∀ (l : List α) (a c : Nat),
      l.foldl (fun x y => max x (key y)) (max a c) =
        max (l.foldl (fun x y => max x (key y)) a) c := by
  intro l
  induction l with
  | nil => intro a c; rfl
  | cons m l ih =>
    intro a c
    simp only [List.foldl_cons]
    rw [Nat.max_right_comm a c (key m), ih]

theorem foldl_max_key_le {α : Type} (key : α → Nat) :
    ∀ (l : List α) (a : Nat), a ≤ l.foldl (fun x y => max x (key y)) a := by
  intro l
  induction l with
  | nil => intro a; exact Nat.le_refl a
  | cons m l ih =>
    intro a
    exact Nat.le_trans (Nat.le_max_left a (key m)) (ih (max a (key m)))

theorem foldl_max_key_mem {α : Type} (key : α → Nat) :
    ∀ (l : List α) (a : Nat) (b : α), b ∈ l → key b ≤ l.foldl (fun x y => max x (key y)) a := by
  intro l
  induction l with
  | nil => intro a b hb; exact absurd hb (by simp)
  | cons m l ih =>
    intro a b hb
    rcases List.mem_cons.mp hb with h | h
    · subst h
      exact Nat.le_trans (Nat.le_max_right a (key b)) (foldl_max_key_le key l _)
    · exact ih _ b h

/-- `max_seen` folded over a batch from an initial cursor value. -/
def batchMax (batch : List MsgT) (a : Nat) : Nat :=
  batch.foldl (fun x mt => max x (midVal mt.msg)) a

theorem batchMax_shift (l : List MsgT) (a c : Nat) :
    batchMax l (max a c) = max (batchMax l a) c :=
  foldl_max_key_shift (fun mt : MsgT => midVal mt.msg) l a c

theorem le_batchMax (l : List MsgT) (a : Nat) : a ≤ batchMax l a :=
  foldl_max_key_le (fun mt : MsgT => midVal mt.msg) l a

theorem insByMid_ne_nil (x : MsgT) (l : List MsgT) : insByMid x l ≠ [] := by
  cases l with
  | nil => simp [insByMid]
  | cons y ys =>
    unfold insByMid
    split <;> simp

theorem sortByMid_eq_nil {l : List MsgT} (h : sortByMid l = []) : l = [] := by
  cases l with
  | nil => rfl
  | cons mt l' => exact absurd h (insByMid_ne_nil mt (sortByMid l'))

theorem batchMax_ins (x : MsgT) (l : List MsgT) (a : Nat) :
    batchMax (insByMid x l) a = max (batchMax l a) (midVal x.msg) := by
  induction l generalizing a with
  | nil => rfl
  | cons y ys ih =>
    unfold insByMid
    split
    · show batchMax (y :: insByMid x ys) a = _
      unfold batchMax
      simp only [List.foldl_cons]
      exact ih (max a (midVal y.msg))
    · show batchMax (x :: y :: ys) a = _
      unfold batchMax
      simp only [List.foldl_cons]
      rw [Nat.max_right_comm a (midVal x.msg) (midVal y.msg)]
      exact foldl_max_key_shift (fun mt => midVal mt.msg) ys _ _

theorem batchMax_sort (l : List MsgT) (a : Nat) : batchMax (sortByMid l) a = batchMax l a := by
  induction l generalizing a with
  | nil => rfl
  | cons mt l' ih =>
    show batchMax (insByMid mt (sortByMid l')) a = batchMax (mt :: l') a
    rw [batchMax_ins, ih]
    exact (batchMax_shift l' a (midVal mt.msg)).symm

theorem mem_insByMid {z x : MsgT} {l : List MsgT} (h : z ∈ insByMid x l) :
    z = x ∨ z ∈ l := by
  induction l with
  | nil => simpa [insByMid] using h
  | cons y ys ih =>
    unfold insByMid at h
    split at h
    · rcases List.mem_cons.mp h with h' | h'
      · exact Or.inr (List.mem_cons.mpr (Or.inl h'))
      · rcases ih h' with h'' | h''
        · exact Or.inl h''
        · exact Or.inr (List.mem_cons.mpr (Or.inr h''))
    · rcases List.mem_cons.mp h with h' | h'
      · exact Or.inl h'
      · exact Or.inr h'

theorem pairwise_insByMid {x : MsgT} {l : List MsgT}
    (h : l.Pairwise (fun a b => midVal a.msg ≤ midVal b.msg)) :
    (insByMid x l).Pairwise (fun a b => midVal a.msg ≤ midVal b.msg) := by
  induction l with
  | nil => simp [insByMid]
  | cons y ys ih =>
    rcases List.pairwise_cons.mp h with ⟨hy, hys⟩
    unfold insByMid
    split
    · refine List.pairwise_cons.mpr ⟨?_, ih hys⟩
      intro z hz
      rcases mem_insByMid hz with h' | h'
      · subst h'; omega
      · exact hy z h'
    · refine List.pairwise_cons.mpr ⟨?_, h⟩
      intro z hz
      rcases List.mem_cons.mp hz with h' | h'
      · subst h'; omega
      · exact Nat.le_trans (by omega) (hy z h')

theorem sortByMid_pairwise (l : List MsgT) :
    (sortByMid l).Pairwise (fun a b => midVal a.msg ≤ midVal b.msg) := by
  induction l with
  | nil => simp [sortByMid]
  | cons mt l' ih => exact pairwise_insByMid ih

theorem stepMain_fst (cfg : CfgM) (f : Nat → Nat → HResp) (mt : MsgT) (mx : Nat) (ts : ℚ) :
    (stepMain cfg f mt mx ts).1 = max mx (midVal mt.msg) := by
  unfold stepMain
  repeat' split
  all_goals rfl

theorem stepMain_dispatch (cfg : CfgM) (f : Nat → Nat → HResp) (mt : MsgT) (mx : Nat)
    (ts : ℚ) {sig : Signal}
    (hcd : ¬ (0 < cfg.cooldown ∧ mt.t1 - ts < cfg.cooldown))
    (hraw : message_text mt.msg ≠ [])
    (hp : parse_signal_from_text (message_text mt.msg) = some sig) :
    stepMain cfg f mt mx ts =
      (max mx (midVal mt.msg), mt.t2,
        some (post_to_all_webhooks (if cfg.dest2 then [cfg.url1, cfg.url2] else [cfg.url1]) f)) := by
  unfold stepMain
  rw [if_neg hcd, if_neg hraw, hp]

theorem procMain_fst (cfg : CfgM) (F : Nat → Nat → Nat → HResp) :
    ∀ (ms : List MsgT) (i mx : Nat) (ts : ℚ),
      (procMain cfg F i ms mx ts).1 = batchMax ms mx := by
  intro ms
  induction ms with
  | nil => intro i mx ts; rfl
  | cons mt rest ih =>
    intro i mx ts
    unfold procMain
    simp only []
    rw [ih, stepMain_fst]
    rfl

theorem tickMain_lastId (cfg : CfgM) (F : Nat → Nat → Nat → HResp) (batch : List MsgT)
    (st : BotState) (h : batch ≠ []) :
    ((tickMain cfg F batch st).1).lastId = some (batchMax batch (lastIdVal st)) := by
  unfold tickMain
  rcases hs : sortByMid batch with _ | ⟨m, ms⟩
  · exact absurd (sortByMid_eq_nil hs) h
  · simp only []
    rw [procMain_fst, ← hs, batchMax_sort]

theorem tickMain_mono (cfg : CfgM) (F : Nat → Nat → Nat → HResp) (batch : List MsgT)
    (st : BotState) : lastIdVal st ≤ lastIdVal (tickMain cfg F batch st).1 := by
  unfold tickMain
  rcases hs : sortByMid batch with _ | ⟨m, ms⟩
  · exact Nat.le_refl _
  · simp only [lastIdVal]
    rw [procMain_fst]
    exact le_batchMax _ _

/-! ### Claim theorems -/

/-- Claim C2: for every input text, `parse_signal_from_text` (in both source
variants) returns a Signal iff both the header cascade (`find_base_side`) and
the entry cascade (`find_entry`) succeed on that text; when either cascade
fails it returns `None`, and this is the sole rejection path. -/
theorem C2_parse_iff_cascades (txt : List Char) :
    ((parse_signal_from_text txt).isSome ↔
      (find_base_side txt).isSome ∧ (find_entry txt).isSome) ∧
    ((parse_signal_from_text_bybit txt).isSome ↔
      (find_base_side txt).isSome ∧ (find_entry txt).isSome) := by
  constructor
  · unfold parse_signal_from_text
    rcases hb : find_base_side txt with _ | ⟨b, sd⟩ <;>
      rcases he : find_entry txt with _ | e <;> simp
  · unfold parse_signal_from_text_bybit
    rcases hb : find_base_side txt with _ | ⟨b, sd⟩ <;>
      rcases he : find_entry txt with _ | e <;> simp

/-- Claim C4 (counterexample): the text `"BTC/USDT LONG\nEntry: 0"` parses to a
Signal whose entry price is `0`, which is not strictly positive — the claim
that every constructed Signal has entry strictly greater than zero is false. -/
theorem C4_counterexample :
    parse_signal_from_text (("BTC/USDT LONG\nEntry: 0").data) =
      some { base := ("BTC").data, side := Side.long, entry := 0 } ∧
    ¬ ((0 : ℚ) < 0) := by
  constructor
  · decide
  · decide

/-- Claim C4 (amended): whenever `parse_signal_from_text` returns a Signal, its
entry price is a non-negative decimal (the `NUM` pattern matches only unsigned
decimal numerals, but `"0"` is such a numeral, so strict positivity fails). -/
theorem C4_entry_nonneg (txt : List Char) (sig : Signal)
    (h : parse_signal_from_text txt = some sig) : 0 ≤ sig.entry :=
  find_entry_nonneg (parse_entry_eq h)

/-- Witness for C4 (amended) at a concrete trade alert. -/
theorem C4_entry_nonneg_witness :
    parse_signal_from_text (("BTC/USDT LONG\nEntry: 50,000").data) =
      some { base := ("BTC").data, side := Side.long, entry := 50000 } ∧
    (0 : ℚ) ≤
      ({ base := ("BTC").data, side := Side.long, entry := 50000 } : Signal).entry :=
  ⟨by decide,
    C4_entry_nonneg (("BTC/USDT LONG\nEntry: 50,000").data)
      { base := ("BTC").data, side := Side.long, entry := 50000 } (by decide)⟩

/-- Claim C6: delivery is attempted to every configured destination
sequentially, whatever the per-destination outcomes are — the attempted URL
sequence of `post_to_all_webhooks` is always the full job list (so a failure,
including exhausted retries raising, on the first destination never prevents
the attempt on the second), and with two destinations configured every
dispatched message attempts exactly `[url1, url2]`. -/
theorem C6_all_destinations_attempted :
    (∀ (urls : List (List Char)) (f : Nat → Nat → HResp),
      (post_to_all_webhooks urls f).map Prod.fst = urls) ∧
    (∀ (cfg : CfgM) (f : Nat → Nat → HResp) (mt : MsgT) (mx : Nat) (ts : ℚ),
      cfg.dest2 = true →
      ¬ (0 < cfg.cooldown ∧ mt.t1 - ts < cfg.cooldown) →
      message_text mt.msg ≠ [] →
      (parse_signal_from_text (message_text mt.msg)).isSome →
      ((stepMain cfg f mt mx ts).2.2).map (fun l => l.map Prod.fst) =
        some [cfg.url1, cfg.url2]) := by
  constructor
  · intro urls f
    exact postAllAux_map_fst f 0 urls
  · intro cfg f mt mx ts h2 hcd hraw hp
    rcases hs : parse_signal_from_text (message_text mt.msg) with _ | sig
    · rw [hs] at hp; exact absurd hp (by simp)
    · unfold stepMain
      rw [if_neg hcd, if_neg hraw, hs]
      simp [h2]
      exact postAllAux_map_fst f 0 _

/-- Witness for C6 at a concrete two-destination configuration whose first
destination fails every attempt with a server error. -/
theorem C6_witness :
    ((stepMain { cooldown := 0, url1 := ("u1").data, dest2 := true, url2 := ("u2").data }
        (fun j _ => if j = 0 then HResp.code 500 else HResp.code 204)
        { msg := { id := some 5, content := ("BTC/USDT LONG\nEntry: 3").data, embeds := [] },
          t1 := 10, t2 := 11 } 0 0).2.2).map (fun l => l.map Prod.fst) =
      some [("u1").data, ("u2").data] :=
  C6_all_destinations_attempted.2
    { cooldown := 0, url1 := ("u1").data, dest2 := true, url2 := ("u2").data }
    (fun j _ => if j = 0 then HResp.code 500 else HResp.code 204)
    { msg := { id := some 5, content := ("BTC/USDT LONG\nEntry: 3").data, embeds := [] },
      t1 := 10, t2 := 11 } 0 0
    rfl (by decide) (by decide) (by decide)

/-- Claim C8: in both variants, a message handled while the cooldown is enabled
and the current time is inside the cooldown window still advances the
in-progress cursor (`max_seen` absorbs its identifier) while `last_trade_ts`
is untouched and no dispatch call is made — the signal is dropped, not
deferred. -/
theorem C8_cooldown_drops_but_advances :
    (∀ (cfg : CfgM) (f : Nat → Nat → HResp) (mt : MsgT) (mx : Nat) (ts : ℚ),
      0 < cfg.cooldown → mt.t1 - ts < cfg.cooldown →
      stepMain cfg f mt mx ts = (max mx (midVal mt.msg), ts, none)) ∧
    (∀ (cfg : CfgB) (ok : Bool) (mt : MsgT) (mx : Nat) (ts : ℚ),
      0 < cfg.cooldown → mt.t1 - ts < cfg.cooldown →
      stepBybit cfg ok mt mx ts = (max mx (midVal mt.msg), ts, none)) := by
  constructor
  · intro cfg f mt mx ts h1 h2
    unfold stepMain
    rw [if_pos ⟨h1, h2⟩]
  · intro cfg ok mt mx ts h1 h2
    unfold stepBybit
    rw [if_pos ⟨h1, h2⟩]

theorem post_one_aux_req_head (f : Nat → HResp) (a rem : Nat) :
    ∃ t r, post_one_aux f a (rem + 1) = (TEv.req :: t, r) := by
  rcases hf : f a with ra | c | _
  · simp only [post_one_aux, hf]
    exact ⟨_, _, rfl⟩
  · simp only [post_one_aux, hf]
    repeat' split
    all_goals exact ⟨_, _, rfl⟩
  · simp only [post_one_aux, hf]
    split
    all_goals exact ⟨_, _, rfl⟩

theorem post_one_aux_req_count (f : Nat → HResp) :
    ∀ (rem a : Nat), ((post_one_aux f a rem).1.count TEv.req) ≤ rem := by
  intro rem
  induction rem with
  | zero => intro a; simp [post_one_aux]
  | succ r ih =>
    intro a
    have hr := ih (a + 1)
    rcases hf : f a with ra | c | _
    · simp only [post_one_aux, hf]
      simp [List.count_cons]
      omega
    · simp only [post_one_aux, hf]
      repeat' split
      · simp
      · simp
      · simp
      · simp [List.count_cons]
        omega
    · simp only [post_one_aux, hf]
      split
      · simp
      · simp [List.count_cons]
        omega

/-- Claim C5 (counterexample): in the delivery path, three consecutive
rate-limit responses exhaust `_post_one`'s three-attempt budget — each 429
`continue` advances the `for attempt in range(3)` loop — after which the
function falls through and gives up with no response and no further retry, so
a rate-limited delivery attempt does consume the bounded retry-attempt
budget. -/
theorem C5_counterexample :
    post_one (fun _ => HResp.rl none) =
      ([TEv.req, TEv.slp (2 + (1 : ℚ)/4), TEv.req, TEv.slp (2 + (1 : ℚ)/4),
        TEv.req, TEv.slp (2 + (1 : ℚ)/4)], PostRes.silent) := by
  show post_one_aux (fun _ => HResp.rl none) 0 (2 + 1) = _
  simp only [post_one_aux, Option.getD]

/-- Claim C5 (amended): a rate-limited request is retried with the
server-advised delay (plus the source's constant slack) or a fixed default
when unspecified — but the two paths differ on budget: in the delivery path
the retry is the next iteration of the bounded three-attempt loop (at most
three requests are ever sent, whatever the responses), while in the fetch path
the same request is repeated with unchanged parameters and no attempt budget
exists. -/
theorem C5_rate_limit_retry :
    (∀ (f : Nat → HResp) (ra : Option ℚ), f 0 = HResp.rl ra →
      ∃ t, (post_one f).1 = TEv.req :: TEv.slp (ra.getD 2 + (1 : ℚ)/4) :: TEv.req :: t) ∧
    (∀ f : Nat → HResp, ((post_one f).1.count TEv.req) ≤ 3) ∧
    (∀ (script : List FResp) (ra : Option ℚ) (after : Option Nat) (lim : Nat) (col : List Msg),
      fetchAux (FResp.rl ra :: script) after lim col =
        (TEv.req :: TEv.slp (ra.getD 5 + (1 : ℚ)/2) :: (fetchAux script after lim col).1,
          (fetchAux script after lim col).2)) := by
  refine ⟨?_, ?_, ?_⟩
  · intro f ra h
    obtain ⟨t, r, ht⟩ := post_one_aux_req_head f 1 1
    rw [show (1 + 1 : Nat) = 2 from rfl] at ht
    have h1 : post_one_aux f 0 (2 + 1) =
        (TEv.req :: TEv.slp (ra.getD 2 + (1 : ℚ)/4) :: (post_one_aux f 1 2).1,
          (post_one_aux f 1 2).2) := by
      simp only [post_one_aux, h]
    show ∃ t, (post_one_aux f 0 (2 + 1)).1 = _
    rw [h1, ht]
    exact ⟨t, rfl⟩
  · intro f
    exact post_one_aux_req_count f 3 0
  · intro script ra after lim col
    rfl

/-- Witness for C5 (amended) at a concrete advised delay of 7 seconds. -/
theorem C5_rate_limit_retry_witness :
    ∃ t, (post_one (fun _ => HResp.rl (some 7))).1 =
      TEv.req :: TEv.slp ((some (7 : ℚ)).getD 2 + (1 : ℚ)/4) :: TEv.req :: t :=
  C5_rate_limit_retry.1 (fun _ => HResp.rl (some 7)) (some 7) rfl

/-- Claim C9 (counterexample): in the direct-execution variant the update gate
is `if sig and sig.get("entry")`, so a parsed Signal whose entry price is the
falsy value `0.0` passes the cooldown gate (cooldown disabled here) yet
`last_trade_ts` is left unchanged (`0`, not the current time `7`) — the claim
that `last_trade_ts` is set unconditionally for every parsed Signal passing
the cooldown gate is false. -/
theorem C9_counterexample :
    (parse_signal_from_text_bybit
        (message_text
          { id := some 3, content := ("BTC/USDT LONG\nEntry: 0").data, embeds := [] })).isSome =
      true ∧
    stepBybit { cooldown := 0, risk := 10, lev := 5, testMode := true } true
        { msg := { id := some 3, content := ("BTC/USDT LONG\nEntry: 0").data, embeds := [] },
          t1 := 5, t2 := 7 } 1 0 =
      (3, 0, none) ∧
    (0 : ℚ) ≠ 7 := by
  refine ⟨by decide, by decide, by norm_num⟩

/-- Claim C9 (amended): when a parsed Signal passes the cooldown gate,
`last_trade_ts` is set to the current time regardless of the delivery outcome —
in the relay variant unconditionally (even when every destination's delivery
fails), and in the direct-execution variant whenever the entry price is
additionally non-zero (the truthiness gate), even when no order is placed at
all because the signal lacks a first target price. -/
theorem C9_ts_set_on_gate_pass :
    (∀ (cfg : CfgM) (f : Nat → Nat → HResp) (mt : MsgT) (mx : Nat) (ts : ℚ) (sig : Signal),
      ¬ (0 < cfg.cooldown ∧ mt.t1 - ts < cfg.cooldown) →
      message_text mt.msg ≠ [] →
      parse_signal_from_text (message_text mt.msg) = some sig →
      (stepMain cfg f mt mx ts).2.1 = mt.t2) ∧
    (∀ (cfg : CfgB) (ok : Bool) (mt : MsgT) (mx : Nat) (ts : ℚ) (sig : SignalB),
      ¬ (0 < cfg.cooldown ∧ mt.t1 - ts < cfg.cooldown) →
      message_text mt.msg ≠ [] →
      parse_signal_from_text_bybit (message_text mt.msg) = some sig →
      sig.entry ≠ 0 →
      (stepBybit cfg ok mt mx ts).2.1 = mt.t2) := by
  constructor
  · intro cfg f mt mx ts sig hcd hraw hp
    unfold stepMain
    rw [if_neg hcd, if_neg hraw, hp]
  · intro cfg ok mt mx ts sig hcd hraw hp hent
    unfold stepBybit
    rw [if_neg hcd, if_neg hraw, hp]
    simp only [if_pos hent]

/-- Witness for C9 (amended): the relay step with every delivery failing, and
the direct-execution step on a signal with no TP1 (no order is placed), both
set `last_trade_ts` to the current time. -/
theorem C9_ts_set_on_gate_pass_witness :
    (stepMain { cooldown := 0, url1 := ("u1").data, dest2 := false, url2 := [] }
        (fun _ _ => HResp.netfail)
        { msg := { id := some 4, content := ("BTC/USDT LONG\nEntry: 2").data, embeds := [] },
          t1 := 20, t2 := 21 } 0 0).2.1 = 21 ∧
    (stepBybit { cooldown := 0, risk := 10, lev := 5, testMode := false } false
        { msg := { id := some 4, content := ("BTC/USDT LONG\nEntry: 2").data, embeds := [] },
          t1 := 20, t2 := 21 } 0 0).2.1 = 21 := by
  constructor
  · exact C9_ts_set_on_gate_pass.1
      { cooldown := 0, url1 := ("u1").data, dest2 := false, url2 := [] }
      (fun _ _ => HResp.netfail)
      { msg := { id := some 4, content := ("BTC/USDT LONG\nEntry: 2").data, embeds := [] },
        t1 := 20, t2 := 21 } 0 0
      { base := ("BTC").data, side := Side.long, entry := 2 }
      (by decide) (by decide) (by decide)
  · exact C9_ts_set_on_gate_pass.2
      { cooldown := 0, risk := 10, lev := 5, testMode := false } false
      { msg := { id := some 4, content := ("BTC/USDT LONG\nEntry: 2").data, embeds := [] },
        t1 := 20, t2 := 21 } 0 0
      { base := ("BTC").data, side := Side.long, entry := 2, tp1 := none, tp2 := none,
        tp3 := none, dca1 := none, dca2 := none, dca3 := none,
        raw := message_text
          { id := some 4, content := ("BTC/USDT LONG\nEntry: 2").data, embeds := [] } }
      (by decide) (by decide) (by decide) (by decide)

/-- Witness for C8: a parseable alert arriving three seconds after the last
dispatch under a 60-second cooldown advances the cursor to its identifier and
produces no dispatch call. -/
theorem C8_witness :
    stepMain { cooldown := 60, url1 := ("u1").data, dest2 := false, url2 := [] }
      (fun _ _ => HResp.code 204)
      { msg := { id := some 9, content := ("BTC/USDT LONG\nEntry: 3").data, embeds := [] },
        t1 := 103, t2 := 104 } 4 100 =
      (9, 100, none) := by
  have h := C8_cooldown_drops_but_advances.1
    { cooldown := 60, url1 := ("u1").data, dest2 := false, url2 := [] }
    (fun _ _ => HResp.code 204)
    { msg := { id := some 9, content := ("BTC/USDT LONG\nEntry: 3").data, embeds := [] },
      t1 := 103, t2 := 104 } 4 100 (by norm_num) (by norm_num)
  rw [h]
  decide

/-- Claim C1: the persisted cursor is monotonically non-decreasing across any
sequence of ticks.  (i) Every tick that processes messages persists a
`last_id` equal to the maximum of the previously loaded value and every
identifier seen in the batch; (ii) a single tick never decreases the cursor;
(iii) along any run the persisted values form a non-decreasing chain — and
since a restart resumes from a previously persisted state, which is just
another `st` of clause (iii), monotonicity also holds across a crash and
restart. -/
theorem C1_cursor_monotone :
    (∀ (cfg : CfgM) (F : Nat → Nat → Nat → HResp) (batch : List MsgT) (st : BotState),
      batch ≠ [] →
      ((tickMain cfg F batch st).1).lastId = some (batchMax batch (lastIdVal st))) ∧
    (∀ (cfg : CfgM) (F : Nat → Nat → Nat → HResp) (batch : List MsgT) (st : BotState),
      lastIdVal st ≤ lastIdVal (tickMain cfg F batch st).1) ∧
    (∀ (cfg : CfgM) (F : Nat → Nat → Nat → Nat → HResp) (k : Nat)
        (batches : List (List MsgT)) (st : BotState),
      List.Chain' (fun a b => a ≤ b)
        (lastIdVal st :: (runTrace cfg F k batches st).map lastIdVal)) := by
  refine ⟨tickMain_lastId, tickMain_mono, ?_⟩
  intro cfg F k batches st
  induction batches generalizing k st with
  | nil => simp [runTrace]
  | cons b bs ih =>
    rw [runTrace]
    simp only [List.map_cons]
    exact List.chain'_cons.mpr ⟨tickMain_mono cfg (F k) b st, ih (k + 1) _⟩

/-- Witness for C1 clause (i): a tick over two messages (identifiers 15 and 12)
from a cursor at 9 persists `last_id = 15`. -/
theorem C1_cursor_monotone_witness :
    ((tickMain { cooldown := 0, url1 := ("u1").data, dest2 := false, url2 := [] }
        (fun _ _ _ => HResp.code 204)
        [{ msg := { id := some 15, content := ("x").data, embeds := [] }, t1 := 1, t2 := 2 },
         { msg := { id := some 12, content := ("y").data, embeds := [] }, t1 := 3, t2 := 4 }]
        { lastId := some 9, lastTradeTs := 0 }).1).lastId = some 15 := by
  have h := C1_cursor_monotone.1
    { cooldown := 0, url1 := ("u1").data, dest2 := false, url2 := [] }
    (fun _ _ _ => HResp.code 204)
    [{ msg := { id := some 15, content := ("x").data, embeds := [] }, t1 := 1, t2 := 2 },
     { msg := { id := some 12, content := ("y").data, embeds := [] }, t1 := 3, t2 := 4 }]
    { lastId := some 9, lastTradeTs := 0 } (by decide)
  rw [h]
  decide

/-- Claim C7 (counterexample): the seeding sits in a bare `try/except: pass`,
so when the baseline fetch raises, `last_id` remains null and the first tick
fetches without an `after` bound — the channel's pre-existing trade alert
(identifier 10, present at seed time) is then parsed and dispatched, so the
claim that no message predating the first run is ever parsed or dispatched is
false on the swallowed-error path. -/
theorem C7_counterexample :
    (seedState false
        [{ id := some 10, content := ("BTC/USDT LONG\nEntry: 3").data, embeds := [] }]).lastId =
      none ∧
    (tickMain { cooldown := 0, url1 := ("u1").data, dest2 := false, url2 := [] }
        (fun _ _ _ => HResp.code 204)
        [{ msg := { id := some 10, content := ("BTC/USDT LONG\nEntry: 3").data, embeds := [] },
           t1 := 1, t2 := 2 }]
        (seedState false
          [{ id := some 10, content := ("BTC/USDT LONG\nEntry: 3").data, embeds := [] }])).2 =
      [(0, post_to_all_webhooks [("u1").data] ((fun _ _ _ => HResp.code 204) 0))] := by
  constructor
  · rfl
  · decide

/-- Claim C7 (amended): with a non-empty channel and a baseline fetch that
succeeds, the first-run seeding sets `last_id` to the identifier of the most
recent existing message before any tick runs; and under the transport contract
that every fetched batch only contains messages with identifiers beyond the
`after` cursor passed to the fetch (`fetchOkB`), no message existing at seed
time is ever contained in a processed batch — so none of them is ever parsed
or dispatched.  When the baseline fetch raises, the exception is swallowed
(`except: pass`), `last_id` stays null, and the guarantee does not hold. -/
theorem C7_first_run_seeding (cfg : CfgM) (F : Nat → Nat → Nat → Nat → HResp)
    (channel : List Msg) (batches : List (List MsgT))
    (hch : channel ≠ [])
    (hok : fetchOkB cfg F 0 batches (seedState true channel) = true) :
    (seedState true channel).lastId = some (chanMaxId channel) ∧
    ∀ b ∈ batches, ∀ mt ∈ b, ∀ m0 ∈ channel, midVal m0 < midVal mt.msg := by
  have hseed : (seedState true channel).lastId = some (chanMaxId channel) := by
    unfold seedState
    rw [if_pos ⟨rfl, hch⟩]
  refine ⟨hseed, ?_⟩
  have hv : lastIdVal (seedState true channel) = chanMaxId channel := by
    unfold lastIdVal
    rw [hseed]
    rfl
  have key : ∀ (bs : List (List MsgT)) (k : Nat) (st : BotState),
      fetchOkB cfg F k bs st = true → chanMaxId channel ≤ lastIdVal st →
      ∀ b ∈ bs, ∀ mt ∈ b, chanMaxId channel < midVal mt.msg := by
    intro bs
    induction bs with
    | nil => intro k st _ _ b hb; exact absurd hb (by simp)
    | cons b' bs' ih =>
      intro k st hok' hle b hb mt hmt
      rw [fetchOkB, Bool.and_eq_true] at hok'
      obtain ⟨hall, hrest⟩ := hok' 
      rcases List.mem_cons.mp hb with h | h
      · subst h
        have hd := List.all_eq_true.mp hall mt hmt
        have hlt : lastIdVal st < midVal mt.msg := of_decide_eq_true hd
        exact Nat.lt_of_le_of_lt hle hlt
      · refine ih (k + 1) _ hrest ?_ b h mt hmt
        exact Nat.le_trans hle (tickMain_mono cfg (F k) b' st)
  intro b hb mt hmt m0 hm0
  have h1 : midVal m0 ≤ chanMaxId channel :=
    foldl_max_key_mem midVal channel 0 m0 hm0
  have h2 : chanMaxId channel < midVal mt.msg :=
    key batches 0 _ hok (Nat.le_of_eq hv.symm) b hb mt hmt
  exact Nat.lt_of_le_of_lt h1 h2

/-- Witness for C7 (amended): a successful seed over a channel whose newest
message has identifier 10, and one subsequent batch carrying identifier 12,
satisfy the contract; message 10 is never in a batch. -/
theorem C7_first_run_seeding_witness :
    (seedState true [{ id := some 10, content := ("old").data, embeds := [] }]).lastId =
      some (chanMaxId [{ id := some 10, content := ("old").data, embeds := [] }]) ∧
    ∀ b ∈ [[({ msg := { id := some 12, content := ("x").data, embeds := [] },
               t1 := 1, t2 := 2 } : MsgT)]],
      ∀ mt ∈ b, ∀ m0 ∈ [({ id := some 10, content := ("old").data, embeds := [] } : Msg)],
        midVal m0 < midVal mt.msg :=
  C7_first_run_seeding
    { cooldown := 0, url1 := ("u1").data, dest2 := false, url2 := [] }
    (fun _ _ _ _ => HResp.code 204)
    [{ id := some 10, content := ("old").data, embeds := [] }]
    [[{ msg := { id := some 12, content := ("x").data, embeds := [] }, t1 := 1, t2 := 2 }]]
    (by decide) (by decide)

/-- Claim C10: a fetched message without an `"id"` field is assigned identifier
0: (i) the batch sort is ascending by identifier, so identifier-0 messages sort
before every message with a positive identifier; (ii) such a message never
advances the cursor — a tick over it alone leaves `last_id` unchanged; (iii) it
is still parsed and dispatched, and when it is fetched again on a later tick it
is dispatched again (nothing ever filters it out), while the cursor still does
not move. -/
theorem C10_idless_message :
    (∀ l : List MsgT, (sortByMid l).Pairwise (fun a b => midVal a.msg ≤ midVal b.msg)) ∧
    (∀ (cfg : CfgM) (F : Nat → Nat → Nat → HResp) (st : BotState) (k : Nat) (mt : MsgT),
      st.lastId = some k → mt.msg.id = none →
      ((tickMain cfg F [mt] st).1).lastId = some k) ∧
    (∀ (cfg : CfgM) (F F' : Nat → Nat → Nat → HResp) (st : BotState) (k : Nat) (mt : MsgT)
        (sig : Signal),
      cfg.cooldown = 0 → st.lastId = some k → mt.msg.id = none →
      message_text mt.msg ≠ [] →
      parse_signal_from_text (message_text mt.msg) = some sig →
      (tickMain cfg F [mt] st).2 =
        [(0, post_to_all_webhooks
              (if cfg.dest2 then [cfg.url1, cfg.url2] else [cfg.url1]) (F 0))] ∧
      (tickMain cfg F' [mt] (tickMain cfg F [mt] st).1).2 =
        [(0, post_to_all_webhooks
              (if cfg.dest2 then [cfg.url1, cfg.url2] else [cfg.url1]) (F' 0))] ∧
      (((tickMain cfg F' [mt] (tickMain cfg F [mt] st).1).1)).lastId = some k) := by
  have hone : ∀ (cfg : CfgM) (F : Nat → Nat → Nat → HResp) (st : BotState) (mt : MsgT),
      tickMain cfg F [mt] st =
        ({ lastId := some (stepMain cfg (F 0) mt (lastIdVal st) st.lastTradeTs).1,
           lastTradeTs := (stepMain cfg (F 0) mt (lastIdVal st) st.lastTradeTs).2.1 },
         match (stepMain cfg (F 0) mt (lastIdVal st) st.lastTradeTs).2.2 with
         | some evs => [(0, evs)]
         | none => []) := by
    intro cfg F st mt
    show tickMain cfg F [mt] st = _
    unfold tickMain
    rcases hstep : stepMain cfg (F 0) mt (lastIdVal st) st.lastTradeTs with ⟨mx, ts, ev⟩
    show (match sortByMid [mt] with
          | [] => (st, [])
          | m :: ms => _) = _
    rw [show sortByMid [mt] = [mt] from rfl]
    simp only [procMain, hstep]
    rcases ev with _ | evs
    · rfl
    · rfl
  have hnocd : ∀ (cfg : CfgM) (f : Nat → Nat → HResp) (mt : MsgT) (mx : Nat) (ts : ℚ)
      (sig : Signal), cfg.cooldown = 0 →
      message_text mt.msg ≠ [] →
      parse_signal_from_text (message_text mt.msg) = some sig →
      stepMain cfg f mt mx ts =
        (max mx (midVal mt.msg), mt.t2,
          some (post_to_all_webhooks
            (if cfg.dest2 then [cfg.url1, cfg.url2] else [cfg.url1]) f)) := by
    intro cfg f mt mx ts sig hc hraw hp
    refine stepMain_dispatch cfg f mt mx ts ?_ hraw hp
    rw [hc]
    simp
  refine ⟨sortByMid_pairwise, ?_, ?_⟩
  · intro cfg F st k mt hk hid
    rw [hone]
    simp only []
    rw [stepMain_fst]
    unfold lastIdVal midVal
    rw [hk, hid]
    simp
  · intro cfg F F' st k mt sig hc hk hid hraw hp
    have hmid : midVal mt.msg = 0 := by unfold midVal; rw [hid]; rfl
    have h1 := hone cfg F st mt
    have hstep1 := hnocd cfg (F 0) mt (lastIdVal st) st.lastTradeTs sig hc hraw hp
    have hst1 : (tickMain cfg F [mt] st).1 =
        { lastId := some (max (lastIdVal st) (midVal mt.msg)), lastTradeTs := mt.t2 } := by
      rw [h1, hstep1]
    have hev1 : (tickMain cfg F [mt] st).2 =
        [(0, post_to_all_webhooks
              (if cfg.dest2 then [cfg.url1, cfg.url2] else [cfg.url1]) (F 0))] := by
      rw [h1, hstep1]
    have h2 := hone cfg F' ((tickMain cfg F [mt] st).1) mt
    have hstep2 := hnocd cfg (F' 0) mt (lastIdVal (tickMain cfg F [mt] st).1)
      ((tickMain cfg F [mt] st).1).lastTradeTs sig hc hraw hp
    refine ⟨hev1, ?_, ?_⟩
    · rw [h2, hstep2]
    · rw [h2, hstep2]
      simp only []
      rw [hst1]
      unfold lastIdVal
      simp [hmid, hk]

/-- Witness for C10 clause (iii): an identifier-less alert is dispatched on two
successive ticks while the cursor stays at 5. -/
theorem C10_idless_message_witness :
    (tickMain { cooldown := 0, url1 := ("u1").data, dest2 := false, url2 := [] }
        (fun _ _ _ => HResp.code 204)
        [{ msg := { id := none, content := ("BTC/USDT LONG\nEntry: 3").data, embeds := [] },
           t1 := 1, t2 := 2 }]
        { lastId := some 5, lastTradeTs := 0 }).2 =
      [(0, post_to_all_webhooks [("u1").data] ((fun _ _ _ => HResp.code 204) 0))] ∧
    (tickMain { cooldown := 0, url1 := ("u1").data, dest2 := false, url2 := [] }
        (fun _ _ _ => HResp.code 200)
        [{ msg := { id := none, content := ("BTC/USDT LONG\nEntry: 3").data, embeds := [] },
           t1 := 1, t2 := 2 }]
        (tickMain { cooldown := 0, url1 := ("u1").data, dest2 := false, url2 := [] }
          (fun _ _ _ => HResp.code 204)
          [{ msg := { id := none, content := ("BTC/USDT LONG\nEntry: 3").data, embeds := [] },
             t1 := 1, t2 := 2 }]
          { lastId := some 5, lastTradeTs := 0 }).1).2 =
      [(0, post_to_all_webhooks [("u1").data] ((fun _ _ _ => HResp.code 200) 0))] ∧
    ((tickMain { cooldown := 0, url1 := ("u1").data, dest2 := false, url2 := [] }
        (fun _ _ _ => HResp.code 200)
        [{ msg := { id := none, content := ("BTC/USDT LONG\nEntry: 3").data, embeds := [] },
           t1 := 1, t2 := 2 }]
        (tickMain { cooldown := 0, url1 := ("u1").data, dest2 := false, url2 := [] }
          (fun _ _ _ => HResp.code 204)
          [{ msg := { id := none, content := ("BTC/USDT LONG\nEntry: 3").data, embeds := [] },
             t1 := 1, t2 := 2 }]
          { lastId := some 5, lastTradeTs := 0 }).1).1).lastId = some 5 := by
  have h := C10_idless_message.2.2
    { cooldown := 0, url1 := ("u1").data, dest2 := false, url2 := [] }
    (fun _ _ _ => HResp.code 204) (fun _ _ _ => HResp.code 200)
    { lastId := some 5, lastTradeTs := 0 } 5
    { msg := { id := none, content := ("BTC/USDT LONG\nEntry: 3").data, embeds := [] },
      t1 := 1, t2 := 2 }
    { base := ("BTC").data, side := Side.long, entry := 3 }
    rfl rfl rfl (by decide) (by decide)
  exact ⟨h.1, h.2.1, h.2.2⟩

/-! ### Normalization lemmas for C3 -/

theorem unescapeGo_of_no_amp : ∀ (n : Nat) (s : List Char), '&' ∉ s → unescapeGo n s = s := by
  intro n
  induction n with
  | zero => intro s _; rfl
  | succ m ih =>
    intro s hs
    cases s with
    | nil => rfl
    | cons c t =>
      have hc : c ≠ '&' := fun h => hs (h ▸ List.mem_cons_self c t)
      have ht : '&' ∉ t := fun h => hs (List.mem_cons_of_mem c h)
      simp only [unescapeGo, if_neg hc]
      rw [ih t ht]

theorem htmlUnescape_of_no_amp {s : List Char} (h : '&' ∉ s) : htmlUnescape s = s :=
  unescapeGo_of_no_amp s.length s h

theorem mdLinkAux_of_no_bracket : ∀ (n : Nat) (s : List Char), '[' ∉ s → mdLinkAux n s = s := by
  intro n
  induction n with
  | zero => intro s _; rfl
  | succ m ih =>
    intro s hs
    cases s with
    | nil => rfl
    | cons c t =>
      have hc : c ≠ '[' := fun h => hs (h ▸ List.mem_cons_self c t)
      have ht : '[' ∉ t := fun h => hs (List.mem_cons_of_mem c h)
      simp only [mdLinkAux, if_neg hc]
      rw [ih t ht]

theorem mdLinkSub_of_no_bracket {s : List Char} (h : '[' ∉ s) : mdLinkSub s = s :=
  mdLinkAux_of_no_bracket s.length s h

theorem mdMarkSub_of_no_mark {s : List Char} (h : ∀ c ∈ s, isMark c = false) :
    mdMarkSub s = s :=
  List.filter_eq_self.mpr (fun c hc => by rw [h c hc]; rfl)

theorem removeCR_of_no_cr {s : List Char} (h : '\r' ∉ s) : removeCR s = s :=
  List.filter_eq_self.mpr (fun c hc => by
    have : c ≠ '\r' := fun he => h (he ▸ hc)
    simpa using this)

theorem mem_removeCR {c : Char} {s : List Char} (h : c ∈ removeCR s) : c ∈ s :=
  (List.mem_filter.mp h).1

theorem mem_collapseAux {c : Char} : ∀ {b : Bool} {s : List Char},
    c ∈ collapseAux b s → c ∈ s ∨ c = ' ' := by
  intro b s
  induction s generalizing b with
  | nil => intro h; exact absurd h (by simp [collapseAux])
  | cons x t ih =>
    intro h
    by_cases hx : isRunWS x = true
    · rcases b with _ | _
      · simp only [collapseAux, if_pos hx] at h
        rcases List.mem_cons.mp h with h' | h'
        · exact Or.inr h'
        · rcases ih h' with h'' | h''
          · exact Or.inl (List.mem_cons_of_mem x h'')
          · exact Or.inr h''
      · simp only [collapseAux, if_pos hx] at h
        rcases ih h with h'' | h''
        · exact Or.inl (List.mem_cons_of_mem x h'')
        · exact Or.inr h''
    · simp only [collapseAux, if_neg hx] at h
      rcases List.mem_cons.mp h with h' | h'
      · exact Or.inl (h' ▸ List.mem_cons_self x t)
      · rcases ih h' with h'' | h''
        · exact Or.inl (List.mem_cons_of_mem x h'')
        · exact Or.inr h''

theorem mem_multiWsSub {c : Char} {s : List Char} (h : c ∈ multiWsSub s) : c ∈ s ∨ c = ' ' :=
  mem_collapseAux h

theorem mem_stripL {c : Char} {s : List Char} (h : c ∈ stripL s) : c ∈ s :=
  List.Sublist.mem h (List.dropWhile_sublist isPySpace)

theorem mem_dropTrail {c : Char} {s : List Char} (h : c ∈ dropTrail s) : c ∈ s := by
  unfold dropTrail at h
  rw [List.mem_reverse] at h
  have := List.Sublist.mem h (List.dropWhile_sublist isPySpace)
  exact List.mem_reverse.mp this

theorem mem_strip {c : Char} {s : List Char} (h : c ∈ strip s) : c ∈ s :=
  mem_stripL (mem_dropTrail h)

theorem splitNL_ne_nil : ∀ s : List Char, splitNL s ≠ [] := by
  intro s
  cases s with
  | nil => simp [splitNL]
  | cons c t =>
    unfold splitNL
    split
    · simp
    · rcases h : splitNL t with _ | ⟨l, ls⟩ <;> simp

theorem mem_splitNL {c : Char} : ∀ {s : List Char} {l : List Char},
    l ∈ splitNL s → c ∈ l → c ∈ s := by
  intro s
  induction s with
  | nil =>
    intro l hl hc
    simp [splitNL] at hl
    subst hl
    exact absurd hc (by simp)
  | cons x t ih =>
    intro l hl hc
    by_cases hx : x = '\n'
    · subst hx
      simp only [splitNL, if_pos rfl] at hl
      rcases List.mem_cons.mp hl with h' | h'
      · subst h'; exact absurd hc (by simp)
      · exact List.mem_cons_of_mem _ (ih h' hc)
    · simp only [splitNL, if_neg hx] at hl
      rcases hs : splitNL t with _ | ⟨h0, hs0⟩
      · exact absurd hs (splitNL_ne_nil t)
      · rw [hs] at hl
        rcases List.mem_cons.mp hl with h' | h'
        · subst h'
          rcases List.mem_cons.mp hc with h'' | h''
          · exact h'' ▸ List.mem_cons_self x t
          · exact List.mem_cons_of_mem _ (ih (hs ▸ List.mem_cons_self h0 hs0) h'')
        · exact List.mem_cons_of_mem _ (ih (hs ▸ List.mem_cons_of_mem h0 h') hc)

theorem no_nl_splitNL : ∀ {s : List Char} {l : List Char}, l ∈ splitNL s → '\n' ∉ l := by
  intro s
  induction s with
  | nil =>
    intro l hl
    simp [splitNL] at hl
    subst hl
    simp
  | cons x t ih =>
    intro l hl
    by_cases hx : x = '\n'
    · subst hx
      simp only [splitNL, if_pos rfl] at hl
      rcases List.mem_cons.mp hl with h' | h'
      · subst h'; simp
      · exact ih h'
    · simp only [splitNL, if_neg hx] at hl
      rcases hs : splitNL t with _ | ⟨h0, hs0⟩
      · exact absurd hs (splitNL_ne_nil t)
      · rw [hs] at hl
        rcases List.mem_cons.mp hl with h' | h'
        · subst h'
          intro hc
          rcases List.mem_cons.mp hc with h'' | h''
          · exact hx h''.symm
          · exact ih (hs ▸ List.mem_cons_self h0 hs0) h''
        · exact ih (hs ▸ List.mem_cons_of_mem h0 h')

theorem joinNL_splitNL : ∀ s : List Char, joinNL (splitNL s) = s := by
  intro s
  induction s with
  | nil => rfl
  | cons x t ih =>
    by_cases hx : x = '\n'
    · subst hx
      show joinNL ([] :: splitNL t) = '\n' :: t
      rcases hs : splitNL t with _ | ⟨h0, hs0⟩
      · exact absurd hs (splitNL_ne_nil t)
      · show [] ++ '\n' :: joinNL (h0 :: hs0) = '\n' :: t
        rw [← hs, ih]
        rfl
    · simp only [splitNL, if_neg hx]
      rcases hs : splitNL t with _ | ⟨h0, hs0⟩
      · exact absurd hs (splitNL_ne_nil t)
      · rcases hs0 with _ | ⟨h1, hs1⟩
        · show x :: h0 = x :: t
          have h2 : joinNL [h0] = t := by rw [← hs]; exact ih
          exact congrArg (fun y => x :: y) h2
        · show (x :: h0) ++ '\n' :: joinNL (h1 :: hs1) = x :: t
          have : joinNL (h0 :: h1 :: hs1) = t := hs ▸ ih
          rw [← this]
          rfl

theorem splitNL_append_no_nl : ∀ (l x : List Char), '\n' ∉ l →
    splitNL (l ++ x) =
      (l ++ ((splitNL x).headD [])) :: (splitNL x).tail := by
  intro l
  induction l with
  | nil =>
    intro x _
    rcases hs : splitNL x with _ | ⟨h0, t0⟩
    · exact absurd hs (splitNL_ne_nil x)
    · simp [hs]
  | cons c t ih =>
    intro x hnl
    have hc : c ≠ '\n' := fun h => hnl (h ▸ List.mem_cons_self c t)
    have ht : '\n' ∉ t := fun h => hnl (List.mem_cons_of_mem c h)
    show splitNL (c :: (t ++ x)) = _
    simp only [splitNL, if_neg hc]
    rw [ih x ht]
    simp

theorem splitNL_joinNL : ∀ (ls : List (List Char)), (∀ l ∈ ls, '\n' ∉ l) → ls ≠ [] →
    splitNL (joinNL ls) = ls := by
  intro ls
  induction ls with
  | nil => intro _ h; exact absurd rfl h
  | cons l ls' ih =>
    intro hnl _
    rcases ls' with _ | ⟨l', ls''⟩
    · show splitNL (joinNL [l]) = [l]
      have := splitNL_append_no_nl l [] (hnl l (List.mem_cons_self l []))
      simpa [joinNL, splitNL] using this
    · show splitNL (l ++ '\n' :: joinNL (l' :: ls'')) = l :: l' :: ls''
      rw [splitNL_append_no_nl l _ (hnl l (List.mem_cons_self _ _))]
      have hrec : splitNL (joinNL (l' :: ls'')) = l' :: ls'' :=
        ih (fun m hm => hnl m (List.mem_cons_of_mem l hm)) (by simp)
      show (l ++ (splitNL ('\n' :: joinNL (l' :: ls''))).headD []) ::
          (splitNL ('\n' :: joinNL (l' :: ls''))).tail = _
      simp only [splitNL, if_pos rfl]
      rw [hrec]
      simp

theorem mem_joinNL {c : Char} : ∀ {ls : List (List Char)},
    c ∈ joinNL ls → (∃ l ∈ ls, c ∈ l) ∨ c = '\n' := by
  intro ls
  induction ls with
  | nil => intro h; exact absurd h (by simp [joinNL])
  | cons l ls' ih =>
    intro h
    rcases ls' with _ | ⟨l', ls''⟩
    · exact Or.inl ⟨l, List.mem_cons_self l [], h⟩
    · rcases List.mem_append.mp h with h' | h'
      · exact Or.inl ⟨l, List.mem_cons_self _ _, h'⟩
      · rcases List.mem_cons.mp h' with h'' | h''
        · exact Or.inr h''
        · rcases ih h'' with ⟨m, hm, hcm⟩ | h3
          · exact Or.inl ⟨m, List.mem_cons_of_mem l hm, hcm⟩
          · exact Or.inr h3

theorem stripL_cons_ws {c : Char} {t : List Char} (h : isPySpace c = true) :
    stripL (c :: t) = stripL t := by
  unfold stripL
  rw [List.dropWhile_cons_of_pos h]

theorem stripL_cons_no {c : Char} {t : List Char} (h : isPySpace c = false) :
    stripL (c :: t) = c :: t := by
  unfold stripL
  rw [List.dropWhile_cons_of_neg (by simp [h])]

theorem stripL_idem (s : List Char) : stripL (stripL s) = stripL s := by
  induction s with
  | nil => rfl
  | cons c t ih =>
    by_cases hc : isPySpace c = true
    · rw [stripL_cons_ws hc]
      exact ih
    · have hc' : isPySpace c = false := by simpa using hc
      rw [stripL_cons_no hc', stripL_cons_no hc']

theorem dropTrail_idem (s : List Char) : dropTrail (dropTrail s) = dropTrail s := by
  unfold dropTrail
  rw [List.reverse_reverse]
  have := stripL_idem s.reverse
  unfold stripL at this
  rw [this]

theorem dropTrail_cons_pos {c : Char} (h : isPySpace c = false) (t : List Char) :
    dropTrail (c :: t) = c :: dropTrail t := by
  unfold dropTrail
  rw [show (c :: t).reverse = t.reverse ++ [c] from by simp]
  rw [List.dropWhile_append]
  by_cases he : (t.reverse.dropWhile isPySpace).isEmpty = true
  · rw [if_pos he]
    rw [List.isEmpty_iff] at he
    rw [he]
    simp [List.dropWhile, h]
  · rw [if_neg he]
    simp

theorem dropTrail_cons_ws {c : Char} (h : isPySpace c = true) (t : List Char) :
    dropTrail (c :: t) = if dropTrail t = [] then [] else c :: dropTrail t := by
  unfold dropTrail
  rw [show (c :: t).reverse = t.reverse ++ [c] from by simp]
  rw [List.dropWhile_append]
  by_cases he : (t.reverse.dropWhile isPySpace).isEmpty = true
  · rw [if_pos he]
    rw [List.isEmpty_iff] at he
    rw [he]
    simp [List.dropWhile, h]
  · rw [if_neg he]
    rw [List.isEmpty_iff] at he
    rw [if_neg (by simpa using he)]
    simp

theorem stripL_dropTrail_comm (s : List Char) :
    stripL (dropTrail s) = dropTrail (stripL s) := by
  induction s with
  | nil => rfl
  | cons c t ih =>
    by_cases hc : isPySpace c = true
    · rw [dropTrail_cons_ws hc]
      by_cases hdt : dropTrail t = []
      · rw [if_pos hdt, stripL_cons_ws hc, ← ih, hdt]
      · rw [if_neg hdt, stripL_cons_ws hc, stripL_cons_ws hc]
        exact ih
    · have hc' : isPySpace c = false := by simpa using hc
      rw [dropTrail_cons_pos hc', stripL_cons_no hc', stripL_cons_no hc',
        dropTrail_cons_pos hc']

theorem strip_idem (s : List Char) : strip (strip s) = strip s := by
  unfold strip
  rw [stripL_dropTrail_comm, stripL_idem, dropTrail_idem]

theorem stripL_reverse (s : List Char) : stripL s.reverse = (dropTrail s).reverse := by
  unfold dropTrail stripL
  rw [List.reverse_reverse]

theorem strip_reverse (s : List Char) : strip s.reverse = (strip s).reverse := by
  unfold strip
  rw [stripL_reverse]
  have h1 : dropTrail (dropTrail s).reverse = (stripL (dropTrail s)).reverse := by
    unfold dropTrail stripL
    rw [List.reverse_reverse]
  rw [h1, stripL_dropTrail_comm]

theorem stripL_length_le (s : List Char) : (stripL s).length ≤ s.length :=
  (List.dropWhile_sublist isPySpace).length_le

theorem dropTrail_length_le (s : List Char) : (dropTrail s).length ≤ s.length := by
  unfold dropTrail
  rw [List.length_reverse]
  have := (List.dropWhile_sublist (l := s.reverse) isPySpace).length_le
  simpa using this

theorem strip_ne_of_head_ws {c : Char} {t : List Char} (h : isPySpace c = true) :
    strip (c :: t) ≠ c :: t := by
  intro he
  have h1 : (strip (c :: t)).length ≤ t.length := by
    unfold strip
    calc (dropTrail (stripL (c :: t))).length ≤ (stripL (c :: t)).length :=
          dropTrail_length_le _
      _ = (stripL t).length := by
          unfold stripL
          rw [List.dropWhile_cons_of_pos h]
      _ ≤ t.length := stripL_length_le t
  rw [he] at h1
  simp at h1

/-- Update the last element of a line list. -/
def modLast (f : List Char → List Char) : List (List Char) → List (List Char)
  | [] => []
  | [l] => [f l]
  | l :: l' :: ls => l :: modLast f (l' :: ls)

theorem modLast_concat (f : List Char → List Char) :
    ∀ (ls : List (List Char)) (a : List Char), modLast f (ls ++ [a]) = ls ++ [f a] := by
  intro ls
  induction ls with
  | nil => intro a; rfl
  | cons l ls' ih =>
    intro a
    rcases ls' with _ | ⟨l', ls''⟩
    · rfl
    · show l :: modLast f ((l' :: ls'') ++ [a]) = _
      rw [ih a]
      rfl

theorem splitNL_concat : ∀ (s : List Char) (c : Char),
    splitNL (s ++ [c]) =
      if c = '\n' then splitNL s ++ [[]] else modLast (fun l => l ++ [c]) (splitNL s) := by
  intro s
  induction s with
  | nil =>
    intro c
    by_cases hc : c = '\n'
    · subst hc; rfl
    · simp only [List.nil_append, splitNL, if_neg hc]
      rfl
  | cons x t ih =>
    intro c
    show splitNL (x :: (t ++ [c])) = _
    by_cases hx : x = '\n'
    · subst hx
      simp only [splitNL, if_pos rfl]
      rw [ih c]
      by_cases hc : c = '\n'
      · rw [if_pos hc, if_pos hc]
        rfl
      · rw [if_neg hc, if_neg hc]
        rcases hs : splitNL t with _ | ⟨h0, t0⟩
        · exact absurd hs (splitNL_ne_nil t)
        · rfl
    · simp only [splitNL, if_neg hx]
      rw [ih c]
      by_cases hc : c = '\n'
      · rw [if_pos hc, if_pos hc]
        rcases hs : splitNL t with _ | ⟨h0, t0⟩
        · exact absurd hs (splitNL_ne_nil t)
        · simp
      · rw [if_neg hc, if_neg hc]
        rcases hs : splitNL t with _ | ⟨h0, t0⟩
        · exact absurd hs (splitNL_ne_nil t)
        · rcases t0 with _ | ⟨h1, t1⟩
          · rfl
          · rfl

theorem splitNL_reverse : ∀ s : List Char,
    splitNL s.reverse = ((splitNL s).map List.reverse).reverse := by
  intro s
  induction s with
  | nil => rfl
  | cons c t ih =>
    rw [show (c :: t).reverse = t.reverse ++ [c] from by simp]
    rw [splitNL_concat]
    by_cases hc : c = '\n'
    · subst hc
      rw [if_pos rfl, ih]
      simp only [splitNL, if_pos rfl]
      simp
    · rw [if_neg hc, ih]
      simp only [splitNL, if_neg hc]
      rcases hs : splitNL t with _ | ⟨h0, t0⟩
      · exact absurd hs (splitNL_ne_nil t)
      · simp only [List.map_cons, List.reverse_cons]
        rw [modLast_concat]

/-- Adjacent characters are not both in the collapsed-whitespace class. -/
def RunFree (a b : Char) : Prop := ¬(isRunWS a = true ∧ isRunWS b = true)

/-- The normal form produced by `MULTI_WS.sub`: every collapsible character is
a plain space, and no two adjacent characters are collapsible. -/
def GoodWS (s : List Char) : Prop :=
  (∀ c ∈ s, isRunWS c = true → c = ' ') ∧ List.Chain' RunFree s

theorem GoodWS_tail {x : Char} {t : List Char} (h : GoodWS (x :: t)) : GoodWS t :=
  ⟨fun c hc => h.1 c (List.mem_cons_of_mem x hc), h.2.tail⟩

theorem collapse_true_head : ∀ (s : List Char) (c : Char),
    (collapseAux true s).head? = some c → isRunWS c = false := by
  intro s
  induction s with
  | nil => intro c h; exact absurd h (by simp [collapseAux])
  | cons x t ih =>
    intro c h
    by_cases hx : isRunWS x = true
    · rw [show collapseAux true (x :: t) = collapseAux true t from by
        simp [collapseAux, hx]] at h
      exact ih c h
    · rw [show collapseAux true (x :: t) = x :: collapseAux false t from by
        simp [collapseAux, hx]] at h
      simp at h
      subst h
      simpa using hx

theorem collapse_good : ∀ (s : List Char) (b : Bool), GoodWS (collapseAux b s) := by
  intro s
  induction s with
  | nil => intro b; exact ⟨by simp [collapseAux], by simp [collapseAux]⟩
  | cons x t ih =>
    intro b
    by_cases hx : isRunWS x = true
    · rcases b with _ | _
      · rw [show collapseAux false (x :: t) = ' ' :: collapseAux true t from by
          simp [collapseAux, hx]]
        refine ⟨?_, ?_⟩
        · intro c hc _
          rcases List.mem_cons.mp hc with h' | h'
          · exact h'
          · exact (ih true).1 c h' (by assumption)
        · refine List.chain'_cons'.mpr ⟨?_, (ih true).2⟩
          intro y hy
          intro hcontra
          have := collapse_true_head t y hy
          rw [this] at hcontra
          exact absurd hcontra.2 (by simp)
      · rw [show collapseAux true (x :: t) = collapseAux true t from by
          simp [collapseAux, hx]]
        exact ih true
    · rw [show collapseAux b (x :: t) = x :: collapseAux false t from by
        simp [collapseAux, hx]]
      refine ⟨?_, ?_⟩
      · intro c hc hrc
        rcases List.mem_cons.mp hc with h' | h'
        · subst h'; exact absurd hrc hx
        · exact (ih false).1 c h' hrc
      · refine List.chain'_cons'.mpr ⟨?_, (ih false).2⟩
        intro y _
        intro hcontra
        exact hx hcontra.1

theorem collapse_fix : ∀ (s : List Char) (b : Bool), GoodWS s →
    (b = true → ∀ c, s.head? = some c → isRunWS c = false) →
    collapseAux b s = s := by
  intro s
  induction s with
  | nil => intro b _ _; rfl
  | cons x t ih =>
    intro b hg hb
    by_cases hx : isRunWS x = true
    · have hxsp : x = ' ' := hg.1 x (List.mem_cons_self x t) hx
      rcases b with _ | _
      · rw [show collapseAux false (x :: t) = ' ' :: collapseAux true t from by
          simp [collapseAux, hx]]
        rw [hxsp]
        have htail : collapseAux true t = t := by
          refine ih true (GoodWS_tail hg) ?_
          intro _ c hc
          have hrel := (List.chain'_cons'.mp hg.2).1 c hc
          by_contra hcon
          exact hrel ⟨hx, by simpa using hcon⟩
        rw [htail]
      · have := hb rfl x rfl
        rw [hx] at this
        exact absurd this (by simp)
    · rw [show collapseAux b (x :: t) = x :: collapseAux false t from by
        simp [collapseAux, hx]]
      rw [ih false (GoodWS_tail hg) (by simp)]

theorem chain'_dropWhile {R : Char → Char → Prop} {p : Char → Bool} :
    ∀ {l : List Char}, List.Chain' R l → List.Chain' R (l.dropWhile p) := by
  intro l
  induction l with
  | nil => intro h; exact h
  | cons c t ih =>
    intro h
    by_cases hc : p c = true
    · rw [List.dropWhile_cons_of_pos hc]
      exact ih h.tail
    · rw [List.dropWhile_cons_of_neg (by simpa using hc)]
      exact h

theorem chain'_runfree_reverse {l : List Char} :
    List.Chain' RunFree l.reverse ↔ List.Chain' RunFree l := by
  rw [List.chain'_reverse]
  constructor
  · exact fun h => h.imp (fun a b hab => fun ⟨x, y⟩ => hab ⟨y, x⟩)
  · exact fun h => h.imp (fun a b hab => fun ⟨x, y⟩ => hab ⟨y, x⟩)

theorem GoodWS_stripL {s : List Char} (h : GoodWS s) : GoodWS (stripL s) :=
  ⟨fun c hc => h.1 c (mem_stripL hc), chain'_dropWhile h.2⟩

theorem GoodWS_dropTrail {s : List Char} (h : GoodWS s) : GoodWS (dropTrail s) := by
  refine ⟨fun c hc => h.1 c (mem_dropTrail hc), ?_⟩
  unfold dropTrail
  rw [chain'_runfree_reverse]
  exact chain'_dropWhile (chain'_runfree_reverse.mpr h.2)

theorem GoodWS_strip {s : List Char} (h : GoodWS s) : GoodWS (strip s) :=
  GoodWS_dropTrail (GoodWS_stripL h)

theorem splitNL_head : ∀ {t h0 : List Char} {t0 : List (List Char)},
    splitNL t = h0 :: t0 → h0 = [] ∨ h0.head? = t.head? := by
  intro t
  cases t with
  | nil =>
    intro h0 t0 h
    rw [show splitNL [] = [[]] from rfl] at h
    injection h with h1 _
    exact Or.inl h1.symm
  | cons c t' =>
    intro h0 t0 h
    by_cases hc : c = '\n'
    · subst hc
      simp only [splitNL, if_pos rfl] at h
      injection h with h1 _
      exact Or.inl h1.symm
    · simp only [splitNL, if_neg hc] at h
      rcases hs : splitNL t' with _ | ⟨g0, g1⟩
      · exact absurd hs (splitNL_ne_nil t')
      · rw [hs] at h
        injection h with h1 _
        rw [← h1]
        exact Or.inr rfl

theorem GoodWS_lines : ∀ {s : List Char}, GoodWS s → ∀ l ∈ splitNL s, GoodWS l := by
  intro s
  induction s with
  | nil =>
    intro _ l hl
    simp [splitNL] at hl
    subst hl
    exact ⟨by simp, by simp⟩
  | cons x t ih =>
    intro hg l hl
    have hgt : GoodWS t := GoodWS_tail hg
    by_cases hx : x = '\n'
    · subst hx
      simp only [splitNL, if_pos rfl] at hl
      rcases List.mem_cons.mp hl with h' | h'
      · subst h'; exact ⟨by simp, by simp⟩
      · exact ih hgt l h'
    · simp only [splitNL, if_neg hx] at hl
      rcases hs : splitNL t with _ | ⟨h0, t0⟩
      · exact absurd hs (splitNL_ne_nil t)
      · rw [hs] at hl
        rcases List.mem_cons.mp hl with h' | h'
        · subst h'
          have hg0 : GoodWS h0 := ih hgt h0 (hs ▸ List.mem_cons_self h0 t0)
          refine ⟨?_, ?_⟩
          · intro c hc hrc
            rcases List.mem_cons.mp hc with h'' | h''
            · exact hg.1 c (by rw [h'']; exact List.mem_cons_self x t) hrc
            · exact hg0.1 c h'' hrc
          · refine List.chain'_cons'.mpr ⟨?_, hg0.2⟩
            intro y hy
            rcases splitNL_head hs with he | he
            · subst he; exact absurd hy (by simp)
            · have hy' : t.head? = some y := by rw [← he]; exact hy
              have := List.chain'_cons'.mp hg.2
              exact this.1 y hy'
        · exact ih hgt l (hs ▸ List.mem_cons_of_mem h0 h')

theorem GoodWS_joinNL : ∀ {ls : List (List Char)}, (∀ l ∈ ls, GoodWS l) →
    GoodWS (joinNL ls) := by
  intro ls
  induction ls with
  | nil => intro _; exact ⟨by simp [joinNL], by simp [joinNL]⟩
  | cons l ls' ih =>
    intro h
    rcases ls' with _ | ⟨l', ls''⟩
    · exact h l (List.mem_cons_self l [])
    · show GoodWS (l ++ '\n' :: joinNL (l' :: ls''))
      have hrest : GoodWS (joinNL (l' :: ls'')) :=
        ih (fun m hm => h m (List.mem_cons_of_mem l hm))
      have hl : GoodWS l := h l (List.mem_cons_self _ _)
      refine ⟨?_, ?_⟩
      · intro c hc hrc
        rcases List.mem_append.mp hc with h' | h'
        · exact hl.1 c h' hrc
        · rcases List.mem_cons.mp h' with h'' | h''
          · subst h''; exact absurd hrc (by simp [isRunWS])
          · exact hrest.1 c h'' hrc
      · refine List.chain'_append.mpr ⟨hl.2, ?_, ?_⟩
        · refine List.chain'_cons'.mpr ⟨?_, hrest.2⟩
          intro y _
          intro hcontra
          have : isRunWS '\n' = true := hcontra.1
          simp [isRunWS] at this
        · intro x _ y hy
          simp at hy
          subst hy
          intro hcontra
          have : isRunWS '\n' = true := hcontra.2
          simp [isRunWS] at this

/-- Every line of the string is already trimmed. -/
def LinesStripped (s : List Char) : Prop := ∀ l ∈ splitNL s, strip l = l

theorem LinesStripped_stripL : ∀ {j : List Char}, LinesStripped j →
    LinesStripped (stripL j) := by
  intro j
  induction j with
  | nil => intro h; exact h
  | cons c t ih =>
    intro h
    by_cases hc : isPySpace c = true
    · by_cases hnl : c = '\n'
      · have ht : LinesStripped t := by
          intro l hl
          refine h l ?_
          subst hnl
          simp only [splitNL, if_pos rfl]
          exact List.mem_cons_of_mem _ hl
        rw [stripL_cons_ws hc]
        exact ih ht
      · exfalso
        rcases hs : splitNL t with _ | ⟨h0, t0⟩
        · exact absurd hs (splitNL_ne_nil t)
        · have hline : (c :: h0) ∈ splitNL (c :: t) := by
            simp only [splitNL, if_neg hnl, hs]
            exact List.mem_cons_self _ _
          exact strip_ne_of_head_ws hc (h (c :: h0) hline)
    · have hc' : isPySpace c = false := by simpa using hc
      rw [stripL_cons_no hc']
      exact h

theorem LinesStripped_reverse {u : List Char} (h : LinesStripped u) :
    LinesStripped u.reverse := by
  intro l hl
  rw [splitNL_reverse] at hl
  rw [List.mem_reverse, List.mem_map] at hl
  obtain ⟨m, hm, hml⟩ := hl
  rw [← hml, strip_reverse, h m hm]

theorem LinesStripped_strip {j : List Char} (h : LinesStripped j) :
    LinesStripped (strip j) := by
  have h1 : LinesStripped (stripL j) := LinesStripped_stripL h
  have h2 : LinesStripped (stripL j).reverse := LinesStripped_reverse h1
  have h3 : LinesStripped (stripL (stripL j).reverse) := LinesStripped_stripL h2
  have h4 : LinesStripped (stripL (stripL j).reverse).reverse := LinesStripped_reverse h3
  show LinesStripped (dropTrail (stripL j))
  unfold dropTrail
  exact h4

/-- The whitespace stage of `clean_markdown`: collapse runs, trim every line,
trim the whole string. -/
def wsPipe (x : List Char) : List Char :=
  strip (joinNL ((splitNL (multiWsSub x)).map strip))

theorem no_nl_strip_line {y l : List Char} (hl : l ∈ (splitNL y).map strip) : '\n' ∉ l := by
  rw [List.mem_map] at hl
  obtain ⟨m, hm, hml⟩ := hl
  intro hc
  exact no_nl_splitNL hm (mem_strip (hml ▸ hc))

theorem wsPipe_lines_stripped (x : List Char) : LinesStripped (wsPipe x) := by
  have hbase : LinesStripped (joinNL ((splitNL (multiWsSub x)).map strip)) := by
    intro l hl
    rw [splitNL_joinNL _ (fun m hm => no_nl_strip_line hm)
      (by
        intro hmap
        exact splitNL_ne_nil (multiWsSub x) (List.map_eq_nil_iff.mp hmap))] at hl
    rw [List.mem_map] at hl
    obtain ⟨m, _, hml⟩ := hl
    rw [← hml]
    exact strip_idem m
  exact LinesStripped_strip hbase

theorem wsPipe_strip_fix (x : List Char) : strip (wsPipe x) = wsPipe x :=
  strip_idem _

theorem wsPipe_good (x : List Char) : GoodWS (wsPipe x) := by
  refine GoodWS_strip (GoodWS_joinNL ?_)
  intro l hl
  rw [List.mem_map] at hl
  obtain ⟨m, hm, hml⟩ := hl
  rw [← hml]
  exact GoodWS_strip (GoodWS_lines (collapse_good x false) m hm)

theorem wsPipe_idem (x : List Char) : wsPipe (wsPipe x) = wsPipe x := by
  have h1 : multiWsSub (wsPipe x) = wsPipe x :=
    collapse_fix _ false (wsPipe_good x) (by simp)
  have h2 : (splitNL (wsPipe x)).map strip = splitNL (wsPipe x) := by
    have := wsPipe_lines_stripped x
    calc (splitNL (wsPipe x)).map strip
        = (splitNL (wsPipe x)).map (fun l => l) :=
          List.map_congr_left (fun l hl => this l hl)
      _ = splitNL (wsPipe x) := List.map_id' _
  show strip (joinNL ((splitNL (multiWsSub (wsPipe x))).map strip)) = wsPipe x
  rw [h1, h2, joinNL_splitNL, wsPipe_strip_fix]

theorem mem_wsPipe {c : Char} {x : List Char} (h : c ∈ wsPipe x) :
    c ∈ x ∨ c = ' ' ∨ c = '\n' := by
  unfold wsPipe at h
  have h1 := mem_strip h
  rcases mem_joinNL h1 with ⟨l, hl, hcl⟩ | hnl
  · rw [List.mem_map] at hl
    obtain ⟨m, hm, hml⟩ := hl
    have h2 : c ∈ m := mem_strip (hml ▸ hcl)
    have h3 : c ∈ multiWsSub x := mem_splitNL hm h2
    rcases mem_multiWsSub h3 with h4 | h4
    · exact Or.inl h4
    · exact Or.inr (Or.inl h4)
  · exact Or.inr (Or.inr hnl)

theorem clean_markdown_eq_wsPipe {s : List Char} (hs : s ≠ [])
    (hamp : '&' ∉ s) (hbr : '[' ∉ s) (hmk : ∀ c ∈ s, isMark c = false) :
    clean_markdown s = wsPipe (removeCR s) := by
  unfold clean_markdown
  rw [if_neg hs]
  rw [htmlUnescape_of_no_amp (fun h => hamp (mem_removeCR h)),
    mdLinkSub_of_no_bracket (fun h => hbr (mem_removeCR h)),
    mdMarkSub_of_no_mark (fun c hc => hmk c (mem_removeCR hc))]
  rfl

/-- Claim C3 (counterexample): normalization is not idempotent.  Stripping the
emphasis marker of `"[a]*(b)"` exposes a markdown link that only the next
application rewrites, so the second pass changes the text again. -/
theorem C3_counterexample :
    clean_markdown (clean_markdown (("[a]*(b)").data)) ≠
      clean_markdown (("[a]*(b)").data) := by
  decide

/-- Claim C3 (amended): `clean_markdown` is idempotent on every input that
contains none of the markup and entity characters of its rewrite stages — no
ampersand, no opening bracket, and no emphasis/code marker; on such inputs
only the whitespace stages act, and those are a projection. -/
theorem C3_clean_markdown_idem (s : List Char)
    (h : ∀ c ∈ s, c ≠ '&' ∧ c ≠ '[' ∧ isMark c = false) :
    clean_markdown (clean_markdown s) = clean_markdown s := by
  by_cases hs : s = []
  · subst hs; rfl
  · have hamp : '&' ∉ s := fun hc => (h '&' hc).1 rfl
    have hbr : '[' ∉ s := fun hc => (h '[' hc).2.1 rfl
    have hmk : ∀ c ∈ s, isMark c = false := fun c hc => (h c hc).2.2
    have hw : clean_markdown s = wsPipe (removeCR s) :=
      clean_markdown_eq_wsPipe hs hamp hbr hmk
    by_cases hw0 : clean_markdown s = []
    · rw [hw0]
      rfl
    · have hmem : ∀ c ∈ clean_markdown s, c ∈ s ∨ c = ' ' ∨ c = '\n' := by
        intro c hc
        rw [hw] at hc
        rcases mem_wsPipe hc with h1 | h1
        · exact Or.inl (mem_removeCR h1)
        · exact Or.inr h1
      have hamp' : '&' ∉ clean_markdown s := by
        intro hc
        rcases hmem '&' hc with h1 | h1 | h1
        · exact hamp h1
        · exact absurd h1 (by decide)
        · exact absurd h1 (by decide)
      have hbr' : '[' ∉ clean_markdown s := by
        intro hc
        rcases hmem '[' hc with h1 | h1 | h1
        · exact hbr h1
        · exact absurd h1 (by decide)
        · exact absurd h1 (by decide)
      have hmk' : ∀ c ∈ clean_markdown s, isMark c = false := by
        intro c hc
        rcases hmem c hc with h1 | h1 | h1
        · exact hmk c h1
        · subst h1; decide
        · subst h1; decide
      have hcr' : '\r' ∉ clean_markdown s := by
        intro hc
        rcases hmem '\r' hc with h1 | h1 | h1
        · have h2 : ('\r' : Char) ∈ removeCR s → False := by
            intro hmem2
            have := (List.mem_filter.mp hmem2).2
            simp at this
          rw [hw] at hc
          rcases mem_wsPipe hc with h3 | h3
          · exact h2 h3
          · exact absurd h3 (by decide)
        · exact absurd h1 (by decide)
        · exact absurd h1 (by decide)
      have hw2 : clean_markdown (clean_markdown s) = wsPipe (removeCR (clean_markdown s)) :=
        clean_markdown_eq_wsPipe hw0 hamp' hbr' hmk'
      rw [hw2, removeCR_of_no_cr hcr', hw, wsPipe_idem]

/-- Witness for C3 (amended) on a concrete markup-free text. -/
theorem C3_clean_markdown_idem_witness :
    clean_markdown (clean_markdown (("  hello   there\n\n world  ").data)) =
      clean_markdown (("  hello   there\n\n world  ").data) :=
  C3_clean_markdown_idem (("  hello   there\n\n world  ").data) (by decide)

end Bot
